import Mathlib

/-!
Verification of the directory-level binary patching engine (`bin_diff_tool`).

The development shallowly embeds the engine's core data model and operations:

* directory trees are association lists from relative paths to file contents
  (byte lists), mirroring the unique-path guarantee of a filesystem walk;
* the content digest is a parameter `hashFn` — the hashing primitive is
  specified only at its contract (a deterministic function of the bytes), so
  the whole development is parametric over the digest type;
* `scanTree` mirrors `scan_directory`'s per-file record `FileInfo { hash, fsize }`;
* `compare_scans`/`compare_directories` mirror `src/patch/diff.rs`;
* `createPatch` mirrors `create_patch` in `src/patch/create.rs`;
* `apply_patch` (deletions, then additions, then modifications with the
  non-fatal checksum warning) mirrors `src/patch/apply.rs`;
* `merge_checksums` and the body-sourcing rules mirror `src/patch/merge.rs`;
* the hex codec over 32-byte digests mirrors `HashResult` in `src/utils/hash.rs`;
* `is_text_file` and the missing-root behaviour of `scan_directory` mirror
  `src/utils/fs.rs`.

Rust `HashMap`s are modelled as association lists where insertion conses a new
entry in front (lookup shadowing matches `HashMap::insert` overwriting), and
iteration is list-order iteration; all map-level statements are therefore made
through `kfind` (first-match lookup), which is insensitive to the unspecified
iteration order of the originals.
-/

set_option linter.unusedSectionVars false
set_option linter.unusedVariables false
set_option linter.unnecessarySeqFocus false
set_option linter.unreachableTactic false
set_option linter.unusedTactic false

namespace BinDiff

/-- Relative paths inside a tree, with `/` separators. -/
abbrev Path := String

/-- File contents as raw bytes. -/
abbrev Content := List (Fin 256)

/-- The scanner's per-file record from `src/utils/fs.rs` (`FileInfo`):
the content digest together with the file size in bytes. Equality derives
field-wise, exactly like the Rust `#[derive(PartialEq, Eq)]`. -/
structure FileInfo (D : Type) where
  hash : D
  fsize : Nat
deriving DecidableEq, Repr

/-- First-match lookup in an association list, the model of `HashMap::get`. -/
def kfind (p : Path) : List (Path × α) → Option α
  | [] => none
  | (q, a) :: rest => if q = p then some a else kfind p rest

/-- Key list of an association list, the model of `HashMap::keys`. -/
def keysOf (l : List (Path × α)) : List Path :=
  l.map (·.1)

/-- The association list has no repeated keys (a `HashMap` invariant). -/
def NodK (l : List (Path × α)) : Prop :=
  (keysOf l).Nodup

/-- Entries with the same key carry the same value. Weaker than `NodK`; it is
what lookup-level reasoning actually needs. -/
def FuncK (l : List (Path × α)) : Prop :=
  ∀ p a b, (p, a) ∈ l → (p, b) ∈ l → a = b

@[simp] theorem kfind_nil (p : Path) : kfind p ([] : List (Path × α)) = none := rfl

@[simp] theorem kfind_cons (p q : Path) (a : α) (rest : List (Path × α)) :
    kfind p ((q, a) :: rest) = if q = p then some a else kfind p rest := rfl

theorem kfind_eq_some_mem {p : Path} {a : α} {l : List (Path × α)}
    (h : kfind p l = some a) : (p, a) ∈ l := by
  induction l with
  | nil => simp [kfind] at h
  | cons e rest ih =>
    obtain ⟨q, b⟩ := e
    by_cases hq : q = p
    · subst hq
      simp [kfind] at h
      simp [h]
    · simp [kfind, hq] at h
      exact List.mem_cons_of_mem _ (ih h)

theorem kfind_isSome_iff_mem_keys {p : Path} {l : List (Path × α)} :
    (kfind p l).isSome ↔ p ∈ keysOf l := by
  induction l with
  | nil => simp [kfind, keysOf]
  | cons e rest ih =>
    obtain ⟨q, b⟩ := e
    by_cases hq : q = p
    · subst hq; simp [kfind, keysOf]
    · simp [kfind, hq, keysOf] at ih ⊢
      exact ⟨fun h => Or.inr (ih.mp h), fun h => ih.mpr (h.resolve_left fun h' => hq h'.symm)⟩

theorem kfind_eq_none_iff_not_mem_keys {p : Path} {l : List (Path × α)} :
    kfind p l = none ↔ p ∉ keysOf l := by
  rw [← kfind_isSome_iff_mem_keys]
  cases kfind p l <;> simp

theorem mem_kfind_of_funcK {p : Path} {a : α} {l : List (Path × α)}
    (hf : FuncK l) (h : (p, a) ∈ l) : kfind p l = some a := by
  induction l with
  | nil => simp at h
  | cons e rest ih =>
    obtain ⟨q, b⟩ := e
    by_cases hq : q = p
    · subst hq
      have : a = b := hf q a b h (List.mem_cons_self _ _)
      simp [kfind, this]
    · rcases List.mem_cons.mp h with h' | h'
      · cases h'; exact absurd rfl hq
      · have hf' : FuncK rest := fun p' x y hx hy =>
          hf p' x y (List.mem_cons_of_mem _ hx) (List.mem_cons_of_mem _ hy)
        simp [kfind, hq, ih hf' h']

theorem funcK_of_nodK {l : List (Path × α)} (h : NodK l) : FuncK l := by
  intro p a b ha hb
  induction l with
  | nil => simp at ha
  | cons e rest ih =>
    obtain ⟨q, c⟩ := e
    have hnd : q ∉ keysOf rest ∧ NodK rest := by
      simpa [NodK, keysOf] using h
    rcases List.mem_cons.mp ha with ha' | ha' <;> rcases List.mem_cons.mp hb with hb' | hb'
    · cases ha'; cases hb'; rfl
    · cases ha'
      exact absurd (by simpa [keysOf] using List.mem_map_of_mem Prod.fst hb') hnd.1
    · cases hb'
      exact absurd (by simpa [keysOf] using List.mem_map_of_mem Prod.fst ha') hnd.1
    · exact ih hnd.2 ha' hb'

section Scan

variable {D : Type} [DecidableEq D]

/-- Scanning a concrete tree: every file is recorded under its relative path
with its digest and size, mirroring the loop body of `scan_directory`
(`src/utils/fs.rs`, the walk over regular files). The digest primitive is the
parameter `hashFn`, per the spec's contract-only treatment of hashing. -/
def scanTree (hashFn : Content → D) (t : List (Path × Content)) :
    List (Path × FileInfo D) :=
  t.map (fun pc => (pc.1, ⟨hashFn pc.2, pc.2.length⟩))

/-- The per-file diff actions of `src/patch/diff.rs` (`FileDiff`). -/
inductive FileDiff where
  | Added (p : Path)
  | Deleted (p : Path)
  | Modified (p : Path)
deriving DecidableEq, Repr

/-- The path carried by a diff action (`FileDiff::path`). -/
def FileDiff.pathOf : FileDiff → Path
  | .Added p => p
  | .Deleted p => p
  | .Modified p => p

/-- The two comparison loops of `compare_directories` (`src/patch/diff.rs`
lines 35-55), expressed on the two scans: first the walk over the target
(emitting `Modified` when the source record differs and `Added` when the
source record is absent), then the walk over the source emitting `Deleted`
for paths absent from the target. The recorded values are compared with
`FileInfo` equality, exactly like the Rust `source_hash != target_hash`
comparison of the two `FileInfo` values. -/
def compare_scans (source target : List (Path × FileInfo D)) : List FileDiff :=
  (target.filterMap (fun pt =>
    match kfind pt.1 source with
    | some si => if si ≠ pt.2 then some (.Modified pt.1) else none
    | none => some (.Added pt.1)))
  ++ (source.filterMap (fun ps =>
    if (kfind ps.1 target).isSome then none else some (.Deleted ps.1)))

/-- `compare_directories` scans both trees and compares the scans. -/
def compare_directories (hashFn : Content → D)
    (sourceTree targetTree : List (Path × Content)) : List FileDiff :=
  compare_scans (scanTree hashFn sourceTree) (scanTree hashFn targetTree)

theorem kfind_scanTree (hashFn : Content → D) (t : List (Path × Content)) (p : Path) :
    kfind p (scanTree hashFn t) = (kfind p t).map (fun c => ⟨hashFn c, c.length⟩) := by
  induction t with
  | nil => simp [scanTree]
  | cons e rest ih =>
    obtain ⟨q, c⟩ := e
    by_cases hq : q = p <;> simp [scanTree, kfind, hq] at ih ⊢ <;> exact ih

theorem nodK_scanTree (hashFn : Content → D) {t : List (Path × Content)}
    (h : NodK t) : NodK (scanTree hashFn t) := by
  simpa [NodK, keysOf, scanTree, List.map_map, Function.comp] using h

theorem added_mem_compare_scans {source target : List (Path × FileInfo D)} {p : Path} :
    FileDiff.Added p ∈ compare_scans source target ↔
      p ∈ keysOf target ∧ kfind p source = none := by
  simp only [compare_scans, List.mem_append, List.mem_filterMap]
  constructor
  · rintro (⟨⟨q, i⟩, hmem, h⟩ | ⟨⟨q, i⟩, hmem, h⟩)
    · rcases hks : kfind q source with _ | si
      · simp only [hks] at h
        cases h
        exact ⟨by simpa [keysOf] using List.mem_map_of_mem Prod.fst hmem, hks⟩
      · simp only [hks] at h
        by_cases hne : si ≠ i <;> simp [hne] at h
    · by_cases hs : (kfind q target).isSome <;> simp [hs] at h
  · rintro ⟨hkt, hks⟩
    rcases kfind_isSome_iff_mem_keys.mpr hkt |> Option.isSome_iff_exists.mp with ⟨i, hi⟩
    refine Or.inl ⟨(p, i), kfind_eq_some_mem hi, ?_⟩
    simp [hks]

theorem deleted_mem_compare_scans {source target : List (Path × FileInfo D)} {p : Path} :
    FileDiff.Deleted p ∈ compare_scans source target ↔
      p ∈ keysOf source ∧ kfind p target = none := by
  simp only [compare_scans, List.mem_append, List.mem_filterMap]
  constructor
  · rintro (⟨⟨q, i⟩, hmem, h⟩ | ⟨⟨q, i⟩, hmem, h⟩)
    · rcases hks : kfind q source with _ | si <;> simp only [hks] at h
      · cases h
      · by_cases hne : si ≠ i <;> simp [hne] at h
    · by_cases hs : (kfind q target).isSome
      · simp [hs] at h
      · cases (if_neg hs ▸ h)
        refine ⟨by simpa [keysOf] using List.mem_map_of_mem Prod.fst hmem, ?_⟩
        simpa using hs
  · rintro ⟨hks, hkt⟩
    rcases kfind_isSome_iff_mem_keys.mpr hks |> Option.isSome_iff_exists.mp with ⟨i, hi⟩
    refine Or.inr ⟨(p, i), kfind_eq_some_mem hi, ?_⟩
    simp [hkt]

theorem modified_mem_compare_scans {source target : List (Path × FileInfo D)} {p : Path}
    (hnt : NodK target) :
    FileDiff.Modified p ∈ compare_scans source target ↔
      ∃ si ti, kfind p source = some si ∧ kfind p target = some ti ∧ si ≠ ti := by
  simp only [compare_scans, List.mem_append, List.mem_filterMap]
  constructor
  · rintro (⟨⟨q, i⟩, hmem, h⟩ | ⟨⟨q, i⟩, hmem, h⟩)
    · rcases hks : kfind q source with _ | si <;> simp only [hks] at h
      · cases h
      · by_cases hne : si ≠ i
        · rw [if_pos hne] at h
          cases h
          exact ⟨si, i, hks, mem_kfind_of_funcK (funcK_of_nodK hnt) hmem, hne⟩
        · simp [hne] at h
    · by_cases hs : (kfind q target).isSome <;> simp [hs] at h
  · rintro ⟨si, ti, hs, ht, hne⟩
    refine Or.inl ⟨(p, ti), kfind_eq_some_mem ht, ?_⟩
    simp [hs, hne]

/-- C2 (counterexample): the claim says a path present in both scans with
equal digests produces no action, but `compare_directories` compares the whole
`FileInfo` record — digest and size — so two records with the same digest and
different sizes are reported as `Modified`. -/
theorem compare_scans_equal_digest_counterexample :
    (FileInfo.hash (⟨0, 1⟩ : FileInfo Nat) = FileInfo.hash (⟨0, 2⟩ : FileInfo Nat)) ∧
      compare_scans [("a", (⟨0, 1⟩ : FileInfo Nat))] [("a", (⟨0, 2⟩ : FileInfo Nat))] =
        [FileDiff.Modified "a"] := by
  constructor
  · rfl
  · rfl

/-- C2 (amended): `diff(S, T)` emits `Added(p)` exactly for paths of `T`
absent from `S`, `Deleted(p)` exactly for paths of `S` absent from `T`, and
`Modified(p)` exactly for paths present in both whose recorded `FileInfo`
(digest or size) differs — no action when digest and size both agree;
consequently no `Added` path is in `S` and no `Deleted` path is in `T`. -/
theorem diff_actions_characterization (S T : List (Path × FileInfo D))
    (hnt : NodK T) :
    (∀ p, FileDiff.Added p ∈ compare_scans S T ↔ p ∈ keysOf T ∧ kfind p S = none) ∧
    (∀ p, FileDiff.Deleted p ∈ compare_scans S T ↔ p ∈ keysOf S ∧ kfind p T = none) ∧
    (∀ p, FileDiff.Modified p ∈ compare_scans S T ↔
      ∃ si ti, kfind p S = some si ∧ kfind p T = some ti ∧ si ≠ ti) ∧
    (∀ p, FileDiff.Added p ∈ compare_scans S T → p ∉ keysOf S) ∧
    (∀ p, FileDiff.Deleted p ∈ compare_scans S T → p ∉ keysOf T) := by
  refine ⟨fun p => added_mem_compare_scans,
    fun p => deleted_mem_compare_scans,
    fun p => modified_mem_compare_scans hnt, fun p h => ?_, fun p h => ?_⟩
  · have := added_mem_compare_scans.mp h
    rw [← kfind_eq_none_iff_not_mem_keys]
    exact this.2
  · have := deleted_mem_compare_scans.mp h
    rw [← kfind_eq_none_iff_not_mem_keys]
    exact this.2

/-- Witness for `diff_actions_characterization` at a concrete pair of scans. -/
theorem diff_actions_characterization_witness :
    FileDiff.Added "t" ∈
        compare_scans [("s", (⟨1, 1⟩ : FileInfo Nat))] [("t", (⟨2, 1⟩ : FileInfo Nat))] ↔
      "t" ∈ keysOf [("t", (⟨2, 1⟩ : FileInfo Nat))] ∧
        kfind "t" [("s", (⟨1, 1⟩ : FileInfo Nat))] = none :=
  (diff_actions_characterization [("s", (⟨1, 1⟩ : FileInfo Nat))]
    [("t", (⟨2, 1⟩ : FileInfo Nat))] (by simp [NodK, keysOf])).1 "t"

end Scan

section HexCodec

/-- One lowercase hex digit, as produced per nibble by the Rust
`format!` with the lowercase-hex, zero-padded conversion in
`HashResult::to_hex` (`src/utils/hash.rs`). -/
def hexDigitOf (n : Fin 16) : Char :=
  if n.val < 10 then Char.ofNat (48 + n.val) else Char.ofNat (87 + n.val)

/-- `HashResult::to_hex`: every byte becomes its two-digit zero-padded
lowercase hex rendering, high nibble first. -/
def to_hex : List (Fin 256) → List Char
  | [] => []
  | b :: rest =>
      hexDigitOf ⟨b.val / 16, by omega⟩ :: hexDigitOf ⟨b.val % 16, by omega⟩ :: to_hex rest

/-- The value of a single hex digit, as `char::to_digit(16)` accepts it
(decimal digits plus both letter cases). -/
def hexVal (c : Char) : Option (Fin 16) :=
  if h : 48 ≤ c.toNat ∧ c.toNat ≤ 57 then some ⟨c.toNat - 48, by omega⟩
  else if h : 97 ≤ c.toNat ∧ c.toNat ≤ 102 then some ⟨c.toNat - 97 + 10, by omega⟩
  else if h : 65 ≤ c.toNat ∧ c.toNat ≤ 70 then some ⟨c.toNat - 65 + 10, by omega⟩
  else none

/-- `u8::from_str_radix(two_chars, 16)`: an optional leading `+` followed by
hex digits; anything else is an error. Two digits can never overflow a byte. -/
def parseBytePair (c1 c2 : Char) : Except String (Fin 256) :=
  if c1 = '+' then
    match hexVal c2 with
    | some v => .ok ⟨v.val, by omega⟩
    | none => .error "invalid digit"
  else
    match hexVal c1, hexVal c2 with
    | some v1, some v2 => .ok ⟨16 * v1.val + v2.val, by omega⟩
    | _, _ => .error "invalid digit"

/-- The 32-iteration parsing loop of `HashResult::from_hex`: consume the
64 characters two at a time. -/
def parseHexPairs : List Char → Except String (List (Fin 256))
  | [] => .ok []
  | c1 :: c2 :: rest =>
      match parseBytePair c1 c2 with
      | .ok b => (parseHexPairs rest).map (b :: ·)
      | .error e => .error e
  | [_] => .error "odd length"

/-- `HashResult::from_hex` (`src/utils/hash.rs` lines 22-35): reject any
input whose length is not 64, then parse the 32 byte pairs. -/
def from_hex (s : List Char) : Except String (List (Fin 256)) :=
  if s.length ≠ 64 then .error "length must be 64"
  else parseHexPairs s

deriving instance DecidableEq for Except

set_option maxRecDepth 4096 in
theorem parseBytePair_hexDigitOf :
    ∀ b : Fin 256,
      parseBytePair (hexDigitOf ⟨b.val / 16, by omega⟩) (hexDigitOf ⟨b.val % 16, by omega⟩) =
        .ok b := by
  decide

theorem to_hex_length (l : List (Fin 256)) : (to_hex l).length = 2 * l.length := by
  induction l with
  | nil => simp [to_hex]
  | cons b rest ih => simp [to_hex, ih]; omega

theorem parseHexPairs_to_hex (l : List (Fin 256)) : parseHexPairs (to_hex l) = .ok l := by
  induction l with
  | nil => simp [to_hex, parseHexPairs]
  | cons b rest ih =>
    simp only [to_hex, parseHexPairs, parseBytePair_hexDigitOf, ih, Except.map]

theorem hexDigitOf_lower :
    ∀ n : Fin 16, (hexDigitOf n).isDigit ∨ ('a' ≤ hexDigitOf n ∧ hexDigitOf n ≤ 'f') := by
  decide

/-- C4: hex codec round trip. For every 32-byte digest `d`,
`from_hex (to_hex d) = d`; `to_hex d` is exactly 64 characters, each a
lowercase hex digit; and `from_hex` fails on every input whose length is
not 64. -/
theorem hex_roundtrip (l : List (Fin 256)) (hl : l.length = 32) :
    from_hex (to_hex l) = .ok l ∧
    (to_hex l).length = 64 ∧
    (∀ c ∈ to_hex l, c.isDigit ∨ ('a' ≤ c ∧ c ≤ 'f')) ∧
    (∀ s : List Char, s.length ≠ 64 → ∃ e, from_hex s = .error e) := by
  have hlen : (to_hex l).length = 64 := by rw [to_hex_length, hl]
  refine ⟨?_, hlen, ?_, ?_⟩
  · rw [from_hex, if_neg (by omega), parseHexPairs_to_hex]
  · intro c hc
    clear hl hlen
    induction l with
    | nil => simp [to_hex] at hc
    | cons b rest ih =>
      simp only [to_hex, List.mem_cons] at hc
      rcases hc with rfl | rfl | hc
      · exact hexDigitOf_lower _
      · exact hexDigitOf_lower _
      · exact ih hc
  · intro s hs
    exact ⟨_, by rw [from_hex, if_pos hs]⟩

/-- Witness for `hex_roundtrip` on the all-zero digest. -/
theorem hex_roundtrip_witness :
    (List.replicate 32 (0 : Fin 256)).length = 32 ∧
      from_hex (to_hex (List.replicate 32 (0 : Fin 256))) =
        .ok (List.replicate 32 (0 : Fin 256)) :=
  ⟨rfl, (hex_roundtrip (List.replicate 32 (0 : Fin 256)) rfl).1⟩

end HexCodec

section FsUtils

/-- The recognised text extensions of `is_text_file` (`src/utils/fs.rs`). -/
def TEXT_EXTENSIONS : List String :=
  ["txt", "md", "json", "xml", "html", "css", "js", "ts", "py", "rs", "go", "java",
   "c", "h", "cpp", "hpp", "toml", "yaml", "yml", "ini", "cfg", "conf", "sh", "bat",
   "ps1", "sql"]

/-- `str::to_lowercase` as applied to extension strings (character-wise
lowercasing; the recognised extensions are all ASCII). -/
def lowerStr (s : String) : String :=
  String.mk (s.data.map Char.toLower)

/-- A file as `is_text_file` sees it: its extension (when the path has one and
it is valid UTF-8) and its readable bytes. -/
structure FsFile where
  ext : Option String
  bytes : List (Fin 256)

/-- `is_text_file` (`src/utils/fs.rs` lines 44-67): when the path has an
extension, classify by the lowercased extension alone; only extension-less
files fall through to the NUL scan of the first 512 readable bytes. -/
def is_text_file (f : FsFile) : Bool :=
  match f.ext with
  | some e => TEXT_EXTENSIONS.contains (lowerStr e)
  | none => ! (f.bytes.take 512).contains 0

/-- C9 (counterexample): the claim's "or the first 512 bytes contain no NUL"
disjunct is wrong — a file whose extension exists but is unrecognised is
classified binary without its content ever being read. `x.bin` containing
the NUL-free bytes "hi" is classified binary by the code although the claimed
iff would classify it text. -/
theorem is_text_file_extension_counterexample :
    is_text_file ⟨some "bin", [104, 105]⟩ = false ∧
      (([104, 105] : List (Fin 256)).take 512).contains 0 = false := by
  constructor
  · decide
  · decide

/-- C9 (amended): `is_text_file` returns true iff the file's lowercased
extension is recognised, or the file has no (UTF-8) extension and its first
512 bytes contain no NUL byte; in particular `note.md` containing "# hello"
is text and `image.bin` containing `[0x00, 0x01, 0x02, 0x00]` is binary. -/
theorem is_text_file_characterization :
    (∀ f : FsFile, is_text_file f = true ↔
      (match f.ext with
       | some e => lowerStr e ∈ TEXT_EXTENSIONS
       | none => (0 : Fin 256) ∉ f.bytes.take 512)) ∧
    is_text_file ⟨some "md", [35, 32, 104, 101, 108, 108, 111]⟩ = true ∧
    is_text_file ⟨some "bin", [0, 1, 2, 0]⟩ = false := by
  refine ⟨fun f => ?_, by decide, by decide⟩
  obtain ⟨ext, bytes⟩ := f
  cases ext with
  | some e => simp [is_text_file, List.elem_iff]
  | none => simp [is_text_file, List.elem_iff]

/-- The filesystem as `scan_directory` observes it: the set of existing
directories, each carrying its tree of regular files under relative paths. -/
structure FileSystem where
  dirs : List (Path × List (Path × Content))

variable {D : Type} [DecidableEq D]

/-- `scan_directory` (`src/utils/fs.rs` lines 17-41): a missing root exits
early with an empty map, otherwise every regular file is recorded with its
digest and size. -/
def scan_directory (hashFn : Content → D) (fs : FileSystem) (root : Path) :
    Except String (List (Path × FileInfo D)) :=
  match kfind root fs.dirs with
  | none => .ok []
  | some t => .ok (scanTree hashFn t)

/-- C8: scanning a non-existent root directory succeeds with an empty map. -/
theorem scan_directory_missing_root (hashFn : Content → D) (fs : FileSystem)
    (root : Path) (h : kfind root fs.dirs = none) :
    scan_directory hashFn fs root = .ok [] := by
  simp [scan_directory, h]

/-- Witness for `scan_directory_missing_root` on an empty filesystem. -/
theorem scan_directory_missing_root_witness :
    kfind "missing" (FileSystem.mk []).dirs = none ∧
      scan_directory (fun c => c.length) (FileSystem.mk []) "missing" = .ok [] :=
  ⟨rfl, scan_directory_missing_root (fun c => c.length) (FileSystem.mk []) "missing" rfl⟩

end FsUtils

section PatchModel

variable {D : Type} [DecidableEq D]

/-- The checksum chain of one modified file (`ModifiedChecksum` in
`src/patch/metadata.rs`): pre-state digest and post-state digest. -/
structure ModifiedChecksum (D : Type) where
  original : D
  modified : D
deriving DecidableEq, Repr

/-- The manifest (`Checksums` in `src/patch/metadata.rs`): added digests,
modified checksum chains, deleted path sequence. -/
structure Checksums (D : Type) where
  added : List (Path × D)
  modified : List (Path × ModifiedChecksum D)
  deleted : List Path
deriving DecidableEq, Repr

/-- An unpacked patch container: the manifest plus the staged file bodies of
the `added/` and `modified/` trees. -/
structure Patch (D : Type) where
  checksums : Checksums D
  addedBodies : List (Path × Content)
  modifiedBodies : List (Path × Content)
deriving DecidableEq, Repr

/-- Dispatch on one diff entry inside `create_patch` (`src/patch/create.rs`
lines 39-51): `process_added_file` copies the target body and records its
digest, `process_deleted_file` appends the path, `process_modified_file`
copies the target body and records the source/target digest chain. A missing
file surfaces as the I/O error of the underlying `fs::copy`. -/
def processOneDiff (hashFn : Content → D) (S T : List (Path × Content))
    (acc : Patch D) : FileDiff → Except String (Patch D)
  | .Added p =>
      match kfind p T with
      | some c => .ok ⟨⟨(p, hashFn c) :: acc.checksums.added, acc.checksums.modified,
          acc.checksums.deleted⟩, (p, c) :: acc.addedBodies, acc.modifiedBodies⟩
      | none => .error "missing added file"
  | .Deleted p =>
      .ok ⟨⟨acc.checksums.added, acc.checksums.modified,
        acc.checksums.deleted ++ [p]⟩, acc.addedBodies, acc.modifiedBodies⟩
  | .Modified p =>
      match kfind p S, kfind p T with
      | some cs, some ct => .ok ⟨⟨acc.checksums.added,
          (p, ⟨hashFn cs, hashFn ct⟩) :: acc.checksums.modified,
          acc.checksums.deleted⟩, acc.addedBodies, (p, ct) :: acc.modifiedBodies⟩
      | _, _ => .error "missing modified file"

/-- The `for diff in &diffs` loop of `create_patch`. -/
def processDiffs (hashFn : Content → D) (S T : List (Path × Content)) :
    Patch D → List FileDiff → Except String (Patch D)
  | acc, [] => .ok acc
  | acc, d :: rest =>
      match processOneDiff hashFn S T acc d with
      | .ok acc' => processDiffs hashFn S T acc' rest
      | .error e => .error e

/-- The initial `Checksums::new()` plus empty staging trees. -/
def emptyPatch : Patch D := ⟨⟨[], [], []⟩, [], []⟩

/-- `create_patch` (`src/patch/create.rs` lines 15-70): compare the trees,
return without producing a patch when the diff is empty, otherwise process
every diff entry into the staged container. -/
def createPatch (hashFn : Content → D) (S T : List (Path × Content)) :
    Except String (Option (Patch D)) :=
  let diffs := compare_directories hashFn S T
  if diffs.isEmpty then .ok none
  else (processDiffs hashFn S T emptyPatch diffs).map some

/-- Removing the file at one path (`fs::remove_file`, tolerating absence). -/
def eraseKey (p : Path) (l : List (Path × α)) : List (Path × α) :=
  l.filter (fun e => decide (e.1 ≠ p))

/-- `apply_deletions` (`src/patch/apply.rs` lines 61-75): remove every
path of `manifest.deleted` from the target tree. -/
def apply_deletions (t : List (Path × Content)) (cs : Checksums D) :
    List (Path × Content) :=
  cs.deleted.foldl (fun t p => eraseKey p t) t

/-- `apply_additions` (`src/patch/apply.rs` lines 77-96): walk the staged
bodies and copy each over the target, overwriting prior content (modelled as
a lookup-shadowing insert). The manifest is ignored by this phase. -/
def apply_additions (t : List (Path × Content)) (bodies : List (Path × Content)) :
    List (Path × Content) :=
  bodies.foldl (fun t pc => pc :: t) t

/-- `verify_original_checksum` (`src/patch/apply.rs` lines 125-143): when the
path has a modified entry and the target file exists, compare the current
digest with the recorded original; a mismatch produces a printed warning
(collected here as the returned list) and the function still returns `Ok`. -/
def verify_original_checksum (hashFn : Content → D) (t : List (Path × Content))
    (p : Path) (cs : Checksums D) : Except String (List Path) :=
  match kfind p cs.modified with
  | some chk =>
      match kfind p t with
      | some current =>
          if hashFn current ≠ chk.original then .ok [p] else .ok []
      | none => .ok []
  | none => .ok []

/-- `apply_modifications` (`src/patch/apply.rs` lines 98-123): for each staged
modified body, verify the original checksum (non-fatally) and copy the body
over the target. -/
def apply_modifications (hashFn : Content → D) :
    List (Path × Content) → List (Path × Content) → Checksums D →
      Except String (List (Path × Content) × List Path)
  | t, [], _ => .ok (t, [])
  | t, (p, c) :: rest, cs =>
      match verify_original_checksum hashFn t p cs with
      | .ok w =>
          match apply_modifications hashFn ((p, c) :: t) rest cs with
          | .ok (t', ws) => .ok (t', w ++ ws)
          | .error e => .error e
      | .error e => .error e

/-- `apply_patch` (`src/patch/apply.rs` lines 13-42): deletions, then
additions, then modifications, in that fixed order. -/
def apply_patch (hashFn : Content → D) (t : List (Path × Content))
    (patch : Patch D) : Except String (List (Path × Content) × List Path) :=
  apply_modifications hashFn
    (apply_additions (apply_deletions t patch.checksums) patch.addedBodies)
    patch.modifiedBodies patch.checksums

end PatchModel

/-- First-defined-wins choice on options, used to state the lookup behaviour
of overwrite folds. -/
def ofirst (a b : Option α) : Option α :=
  match a with
  | some x => some x
  | none => b

@[simp] theorem ofirst_some (x : α) (b : Option α) : ofirst (some x) b = some x := rfl

@[simp] theorem ofirst_none (b : Option α) : ofirst none b = b := rfl

theorem kfind_eraseKey (p q : Path) (l : List (Path × α)) :
    kfind p (eraseKey q l) = if q = p then none else kfind p l := by
  induction l with
  | nil => simp [eraseKey]
  | cons e rest ih =>
    obtain ⟨r, a⟩ := e
    by_cases hr : r = q
    · subst hr
      by_cases hq : r = p
      · subst hq; simp [eraseKey, kfind] at ih ⊢; exact ih
      · simp [eraseKey, kfind, hq] at ih ⊢; simpa [hq] using ih
    · by_cases hp : r = p
      · subst hp
        have : q ≠ r := fun h => hr h.symm
        simp [eraseKey, kfind, hr, this]
      · simp [eraseKey, kfind, hr, hp] at ih ⊢; exact ih

theorem kfind_apply_deletions (p : Path) (del : List Path) :
    ∀ t : List (Path × Content),
      kfind p (del.foldl (fun t q => eraseKey q t) t) =
        if p ∈ del then none else kfind p t := by
  induction del with
  | nil => intro t; simp
  | cons q rest ih =>
    intro t
    rw [List.foldl_cons, ih]
    by_cases hq : q = p
    · subst hq; simp [kfind_eraseKey]
    · have : ¬ p = q := fun h => hq h.symm
      simp [kfind_eraseKey, hq, this]

theorem kfind_apply_additions (p : Path) (bs : List (Path × Content))
    (hfun : ∀ c₁ c₂, (p, c₁) ∈ bs → (p, c₂) ∈ bs → c₁ = c₂) :
    ∀ t : List (Path × Content),
      kfind p (apply_additions t bs) = ofirst (kfind p bs) (kfind p t) := by
  induction bs with
  | nil => intro t; simp [apply_additions]
  | cons e rest ih =>
    intro t
    obtain ⟨q, c⟩ := e
    have ih' := ih (fun c₁ c₂ h₁ h₂ =>
      hfun c₁ c₂ (List.mem_cons_of_mem _ h₁) (List.mem_cons_of_mem _ h₂))
    show kfind p (apply_additions ((q, c) :: t) rest) = _
    rw [ih' ((q, c) :: t)]
    by_cases hq : q = p
    · subst hq
      rcases hr : kfind q rest with _ | c'
      · simp [kfind]
      · have : c' = c :=
          hfun c' c (List.mem_cons_of_mem _ (kfind_eq_some_mem hr)) (List.mem_cons_self _ _)
        simp [kfind, hr, this]
    · simp [kfind, hq]

section ApplySpec

variable {D : Type} [DecidableEq D]

/-- The warning produced by one checksum verification: the path, when the
manifest records the file as modified, the target file exists, and its
current digest differs from the recorded original. -/
def warnOne (hashFn : Content → D) (t : List (Path × Content)) (p : Path)
    (cs : Checksums D) : List Path :=
  match kfind p cs.modified with
  | some chk =>
      match kfind p t with
      | some current => if hashFn current ≠ chk.original then [p] else []
      | none => []
  | none => []

/-- All warnings collected by the modification walk, each one evaluated
against the tree state at its own step. -/
def collectWarnings (hashFn : Content → D) :
    List (Path × Content) → List (Path × Content) → Checksums D → List Path
  | _, [], _ => []
  | t, (p, c) :: rest, cs =>
      warnOne hashFn t p cs ++ collectWarnings hashFn ((p, c) :: t) rest cs

theorem verify_original_checksum_ok (hashFn : Content → D)
    (t : List (Path × Content)) (p : Path) (cs : Checksums D) :
    verify_original_checksum hashFn t p cs = .ok (warnOne hashFn t p cs) := by
  rw [verify_original_checksum, warnOne]
  rcases kfind p cs.modified with _ | chk
  · rfl
  · rcases kfind p t with _ | current
    · rfl
    · by_cases h : hashFn current ≠ chk.original <;> simp [h]

theorem apply_modifications_eq (hashFn : Content → D) (cs : Checksums D)
    (bs : List (Path × Content)) :
    ∀ t, apply_modifications hashFn t bs cs =
      .ok (apply_additions t bs, collectWarnings hashFn t bs cs) := by
  induction bs with
  | nil => intro t; rfl
  | cons e rest ih =>
    intro t
    obtain ⟨p, c⟩ := e
    rw [apply_modifications, verify_original_checksum_ok, ih ((p, c) :: t)]
    rfl

theorem mem_collectWarnings (hashFn : Content → D) (cs : Checksums D)
    {p : Path} {c : Content} {chk : ModifiedChecksum D} {cur : Content}
    {bs : List (Path × Content)} (hnd : NodK bs) :
    ∀ {t}, (p, c) ∈ bs → kfind p cs.modified = some chk →
      kfind p t = some cur → hashFn cur ≠ chk.original →
      p ∈ collectWarnings hashFn t bs cs := by
  induction bs with
  | nil => intro t h; simp at h
  | cons e rest ih =>
    intro t hm hcs ht hne
    obtain ⟨q, cq⟩ := e
    have hnd' : q ∉ keysOf rest ∧ NodK rest := by simpa [NodK, keysOf] using hnd
    rcases List.mem_cons.mp hm with he | he
    · cases he
      simp [collectWarnings, warnOne, hcs, ht, hne]
    · have hpq : p ≠ q := by
        intro h
        subst h
        exact hnd'.1 (by simpa [keysOf] using List.mem_map_of_mem Prod.fst he)
      have ht' : kfind p ((q, cq) :: t) = some cur := by
        have hqp : q ≠ p := fun h => hpq h.symm
        simp [kfind, hqp, ht]
      exact List.mem_append_right _ (ih hnd'.2 he hcs ht' hne)

/-- C5: a precondition mismatch is warned, never raised. The modification
phase always returns `Ok`; every staged body whose manifest entry's original
digest differs from the target's current digest yields a warning for its
path, its new body is still copied over the target, and the walk continues
through all remaining files (the final tree covers the whole body list). -/
theorem precondition_mismatch_warned (hashFn : Content → D) (cs : Checksums D)
    (t bs : List (Path × Content)) (hnd : NodK bs) :
    ∃ t' ws, apply_modifications hashFn t bs cs = .ok (t', ws) ∧
      ∀ p c chk cur, (p, c) ∈ bs → kfind p cs.modified = some chk →
        kfind p t = some cur → hashFn cur ≠ chk.original →
        p ∈ ws ∧ kfind p t' = some c := by
  refine ⟨apply_additions t bs, collectWarnings hashFn t bs cs,
    apply_modifications_eq hashFn cs bs t, ?_⟩
  intro p c chk cur hm hcs ht hne
  refine ⟨mem_collectWarnings hashFn cs hnd hm hcs ht hne, ?_⟩
  have hfun : ∀ c₁ c₂, (p, c₁) ∈ bs → (p, c₂) ∈ bs → c₁ = c₂ :=
    fun c₁ c₂ h₁ h₂ => funcK_of_nodK hnd p c₁ c₂ h₁ h₂
  rw [kfind_apply_additions p bs hfun t,
    mem_kfind_of_funcK (funcK_of_nodK hnd) hm]
  rfl

/-- Witness for `precondition_mismatch_warned`: one staged body whose target
content digest (here, its length) differs from the recorded original. -/
theorem precondition_mismatch_warned_witness :
    NodK [(("a" : Path), ([1, 1] : Content))] ∧
      ∃ t' ws,
        apply_modifications (fun c => c.length)
            [("a", ([0] : Content))] [("a", [1, 1])]
            (⟨[], [("a", ⟨5, 7⟩)], []⟩ : Checksums Nat) = .ok (t', ws) ∧
          ∀ p c chk cur, (p, c) ∈ [(("a" : Path), ([1, 1] : Content))] →
            kfind p [(("a" : Path), (⟨5, 7⟩ : ModifiedChecksum Nat))] = some chk →
            kfind p [(("a" : Path), ([0] : Content))] = some cur →
            cur.length ≠ chk.original →
            p ∈ ws ∧ kfind p t' = some c :=
  ⟨by simp [NodK, keysOf],
    precondition_mismatch_warned (fun c => c.length)
      (⟨[], [("a", ⟨5, 7⟩)], []⟩ : Checksums Nat)
      [("a", [0])] [("a", [1, 1])] (by simp [NodK, keysOf])⟩

/-- C10: apply never reads the digests recorded in `manifest.added` — two
containers identical except for those digest values produce identical results
on every target tree. -/
theorem apply_ignores_added_digests (hashFn : Content → D) (c1 c2 : Checksums D)
    (ab mb t : List (Path × Content))
    (hkeys : keysOf c1.added = keysOf c2.added)
    (hmod : c1.modified = c2.modified)
    (hdel : c1.deleted = c2.deleted) :
    apply_patch hashFn t ⟨c1, ab, mb⟩ = apply_patch hashFn t ⟨c2, ab, mb⟩ := by
  have hver : ∀ t' p, verify_original_checksum hashFn t' p c1 =
      verify_original_checksum hashFn t' p c2 := by
    intro t' p
    rw [verify_original_checksum, verify_original_checksum, hmod]
  have hmods : ∀ bs t', apply_modifications hashFn t' bs c1 =
      apply_modifications hashFn t' bs c2 := by
    intro bs
    induction bs with
    | nil => intro t'; rfl
    | cons e rest ih =>
      intro t'
      obtain ⟨p, c⟩ := e
      rw [apply_modifications, apply_modifications, hver, ih]
  have hdels : apply_deletions t c1 = apply_deletions t c2 := by
    rw [apply_deletions, apply_deletions, hdel]
  rw [apply_patch, apply_patch]
  simp only [hdels, hmods]

/-- Witness for `apply_ignores_added_digests`: containers whose `added`
digests differ (1 vs 2) but whose applies coincide. -/
theorem apply_ignores_added_digests_witness :
    keysOf [(("a" : Path), (1 : Nat))] = keysOf [(("a" : Path), (2 : Nat))] ∧
      apply_patch (fun c => c.length) []
          ⟨⟨[("a", 1)], [], []⟩, [("a", [0])], []⟩ =
        apply_patch (fun c => c.length) []
          ⟨⟨[("a", 2)], [], []⟩, [("a", [0])], []⟩ :=
  ⟨rfl, apply_ignores_added_digests (fun c => c.length)
    ⟨[("a", 1)], [], []⟩ ⟨[("a", 2)], [], []⟩ [("a", [0])] [] [] rfl rfl rfl⟩

end ApplySpec

section CreateSpec

variable {D : Type} [DecidableEq D]

/-- The successful branch of `processOneDiff`, as a total function. Under the
success hypotheses (every `Added`/`Modified` path present in its tree) it
coincides with `processOneDiff`. -/
def processOneDiffT (hashFn : Content → D) (S T : List (Path × Content))
    (acc : Patch D) : FileDiff → Patch D
  | .Added p =>
      match kfind p T with
      | some c => ⟨⟨(p, hashFn c) :: acc.checksums.added, acc.checksums.modified,
          acc.checksums.deleted⟩, (p, c) :: acc.addedBodies, acc.modifiedBodies⟩
      | none => acc
  | .Deleted p =>
      ⟨⟨acc.checksums.added, acc.checksums.modified,
        acc.checksums.deleted ++ [p]⟩, acc.addedBodies, acc.modifiedBodies⟩
  | .Modified p =>
      match kfind p S, kfind p T with
      | some cs, some ct => ⟨⟨acc.checksums.added,
          (p, ⟨hashFn cs, hashFn ct⟩) :: acc.checksums.modified,
          acc.checksums.deleted⟩, acc.addedBodies, (p, ct) :: acc.modifiedBodies⟩
      | _, _ => acc

/-- Total version of the diff-processing loop. -/
def processDiffsT (hashFn : Content → D) (S T : List (Path × Content)) :
    Patch D → List FileDiff → Patch D
  | acc, [] => acc
  | acc, d :: rest => processDiffsT hashFn S T (processOneDiffT hashFn S T acc d) rest

theorem processDiffs_eq_total (hashFn : Content → D) (S T : List (Path × Content))
    (diffs : List FileDiff)
    (hA : ∀ p, FileDiff.Added p ∈ diffs → (kfind p T).isSome)
    (hM : ∀ p, FileDiff.Modified p ∈ diffs → (kfind p S).isSome ∧ (kfind p T).isSome) :
    ∀ acc, processDiffs hashFn S T acc diffs =
      .ok (processDiffsT hashFn S T acc diffs) := by
  induction diffs with
  | nil => intro acc; rfl
  | cons d rest ih =>
    intro acc
    have hA' : ∀ p, FileDiff.Added p ∈ rest → (kfind p T).isSome :=
      fun p h => hA p (List.mem_cons_of_mem _ h)
    have hM' : ∀ p, FileDiff.Modified p ∈ rest → (kfind p S).isSome ∧ (kfind p T).isSome :=
      fun p h => hM p (List.mem_cons_of_mem _ h)
    have hstep : processOneDiff hashFn S T acc d =
        .ok (processOneDiffT hashFn S T acc d) := by
      cases d with
      | Added p =>
        have := hA p (List.mem_cons_self _ _)
        rcases hT : kfind p T with _ | c
        · rw [hT] at this; cases this
        · simp [processOneDiff, processOneDiffT, hT]
      | Deleted p => rfl
      | Modified p =>
        have := hM p (List.mem_cons_self _ _)
        rcases hS : kfind p S with _ | cs
        · rw [hS] at this; simp at this
        · rcases hT : kfind p T with _ | ct
          · rw [hT] at this; simp at this
          · simp [processOneDiff, processOneDiffT, hS, hT]
    rw [processDiffs, hstep, processDiffsT]
    exact ih hA' hM' _

theorem processDiffsT_spec (hashFn : Content → D) (S T : List (Path × Content))
    (diffs : List FileDiff)
    (hA : ∀ p, FileDiff.Added p ∈ diffs → (kfind p T).isSome)
    (hM : ∀ p, FileDiff.Modified p ∈ diffs → (kfind p S).isSome ∧ (kfind p T).isSome) :
    ∀ acc : Patch D,
      (∀ p, kfind p (processDiffsT hashFn S T acc diffs).checksums.added =
        if FileDiff.Added p ∈ diffs then (kfind p T).map hashFn
        else kfind p acc.checksums.added) ∧
      (∀ p, kfind p (processDiffsT hashFn S T acc diffs).addedBodies =
        if FileDiff.Added p ∈ diffs then kfind p T else kfind p acc.addedBodies) ∧
      (∀ p, kfind p (processDiffsT hashFn S T acc diffs).checksums.modified =
        if FileDiff.Modified p ∈ diffs then
          (match kfind p S, kfind p T with
           | some cs, some ct => some ⟨hashFn cs, hashFn ct⟩
           | _, _ => none)
        else kfind p acc.checksums.modified) ∧
      (∀ p, kfind p (processDiffsT hashFn S T acc diffs).modifiedBodies =
        if FileDiff.Modified p ∈ diffs then kfind p T else kfind p acc.modifiedBodies) ∧
      (∀ p, p ∈ (processDiffsT hashFn S T acc diffs).checksums.deleted ↔
        FileDiff.Deleted p ∈ diffs ∨ p ∈ acc.checksums.deleted) := by
  induction diffs with
  | nil =>
    intro acc
    simp [processDiffsT]
  | cons d rest ih =>
    intro acc
    have hA' : ∀ p, FileDiff.Added p ∈ rest → (kfind p T).isSome :=
      fun p h => hA p (List.mem_cons_of_mem _ h)
    have hM' : ∀ p, FileDiff.Modified p ∈ rest → (kfind p S).isSome ∧ (kfind p T).isSome :=
      fun p h => hM p (List.mem_cons_of_mem _ h)
    obtain ⟨ihA, ihAB, ihM, ihMB, ihD⟩ :=
      ih hA' hM' (processOneDiffT hashFn S T acc d)
    rw [processDiffsT]
    cases d with
    | Added q =>
      have hq := hA q (List.mem_cons_self _ _)
      rcases hTq : kfind q T with _ | cq
      · rw [hTq] at hq; cases hq
      · refine ⟨fun p => ?_, fun p => ?_, fun p => ?_, fun p => ?_, fun p => ?_⟩
        · rw [ihA p]
          by_cases hmem : FileDiff.Added p ∈ rest
          · simp [hmem]
          · by_cases hpq : p = q
            · subst hpq
              simp [hmem, processOneDiffT, hTq, kfind]
            · have hqp : q ≠ p := fun h => hpq h.symm
              simp [hmem, hpq, processOneDiffT, hTq, kfind, hqp]
        · rw [ihAB p]
          by_cases hmem : FileDiff.Added p ∈ rest
          · simp [hmem]
          · by_cases hpq : p = q
            · subst hpq
              simp [hmem, processOneDiffT, hTq, kfind]
            · have hqp : q ≠ p := fun h => hpq h.symm
              simp [hmem, hpq, processOneDiffT, hTq, kfind, hqp]
        · rw [ihM p]
          simp [processOneDiffT, hTq]
        · rw [ihMB p]
          simp [processOneDiffT, hTq]
        · rw [ihD p]
          simp [processOneDiffT, hTq]
    | Deleted q =>
      refine ⟨fun p => ?_, fun p => ?_, fun p => ?_, fun p => ?_, fun p => ?_⟩
      · rw [ihA p]; simp [processOneDiffT]
      · rw [ihAB p]; simp [processOneDiffT]
      · rw [ihM p]; simp [processOneDiffT]
      · rw [ihMB p]; simp [processOneDiffT]
      · rw [ihD p]
        simp [processOneDiffT]
        tauto
    | Modified q =>
      obtain ⟨hqS, hqT⟩ := hM q (List.mem_cons_self _ _)
      rcases hSq : kfind q S with _ | cs
      · rw [hSq] at hqS; simp at hqS
      rcases hTq : kfind q T with _ | ct
      · rw [hTq] at hqT; simp at hqT
      refine ⟨fun p => ?_, fun p => ?_, fun p => ?_, fun p => ?_, fun p => ?_⟩
      · rw [ihA p]; simp [processOneDiffT, hSq, hTq]
      · rw [ihAB p]; simp [processOneDiffT, hSq, hTq]
      · rw [ihM p]
        by_cases hmem : FileDiff.Modified p ∈ rest
        · simp [hmem]
        · by_cases hpq : p = q
          · subst hpq
            simp [hmem, processOneDiffT, hSq, hTq, kfind]
          · have hqp : q ≠ p := fun h => hpq h.symm
            simp [hmem, hpq, processOneDiffT, hSq, hTq, kfind, hqp]
      · rw [ihMB p]
        by_cases hmem : FileDiff.Modified p ∈ rest
        · simp [hmem]
        · by_cases hpq : p = q
          · subst hpq
            simp [hmem, processOneDiffT, hSq, hTq, kfind]
          · have hqp : q ≠ p := fun h => hpq h.symm
            simp [hmem, hpq, processOneDiffT, hSq, hTq, kfind, hqp]
      · rw [ihD p]; simp [processOneDiffT, hSq, hTq]

theorem processDiffsT_addedBodies_value (hashFn : Content → D)
    (S T : List (Path × Content)) (diffs : List FileDiff) :
    ∀ acc : Patch D,
      (∀ p c, (p, c) ∈ acc.addedBodies → kfind p T = some c) →
      ∀ p c, (p, c) ∈ (processDiffsT hashFn S T acc diffs).addedBodies →
        kfind p T = some c := by
  induction diffs with
  | nil => intro acc hacc; exact hacc
  | cons d rest ih =>
    intro acc hacc
    rw [processDiffsT]
    refine ih (processOneDiffT hashFn S T acc d) ?_
    intro p c hm
    cases d with
    | Added q =>
      rcases hTq : kfind q T with _ | cq
      · rw [processOneDiffT, hTq] at hm
        exact hacc p c hm
      · rw [processOneDiffT, hTq] at hm
        rcases List.mem_cons.mp hm with he | he
        · cases he; exact hTq
        · exact hacc p c he
    | Deleted q => exact hacc p c hm
    | Modified q =>
      rcases hSq : kfind q S with _ | cs <;> rcases hTq : kfind q T with _ | ct <;>
        rw [processOneDiffT, hSq, hTq] at hm <;> exact hacc p c hm

theorem processDiffsT_modifiedBodies_value (hashFn : Content → D)
    (S T : List (Path × Content)) (diffs : List FileDiff) :
    ∀ acc : Patch D,
      (∀ p c, (p, c) ∈ acc.modifiedBodies → kfind p T = some c) →
      ∀ p c, (p, c) ∈ (processDiffsT hashFn S T acc diffs).modifiedBodies →
        kfind p T = some c := by
  induction diffs with
  | nil => intro acc hacc; exact hacc
  | cons d rest ih =>
    intro acc hacc
    rw [processDiffsT]
    refine ih (processOneDiffT hashFn S T acc d) ?_
    intro p c hm
    cases d with
    | Added q =>
      rcases hTq : kfind q T with _ | cq <;>
        rw [processOneDiffT, hTq] at hm <;> exact hacc p c hm
    | Deleted q => exact hacc p c hm
    | Modified q =>
      rcases hSq : kfind q S with _ | cs <;> rcases hTq : kfind q T with _ | ct <;>
        rw [processOneDiffT, hSq, hTq] at hm
      · exact hacc p c hm
      · exact hacc p c hm
      · exact hacc p c hm
      · rcases List.mem_cons.mp hm with he | he
        · cases he; exact hTq
        · exact hacc p c he

/-- The scan record a tree implies for a content. -/
def infoOf (hashFn : Content → D) (c : Content) : FileInfo D :=
  ⟨hashFn c, c.length⟩

theorem added_mem_compare_directories (hashFn : Content → D)
    {S T : List (Path × Content)} {p : Path} :
    FileDiff.Added p ∈ compare_directories hashFn S T ↔
      (kfind p T).isSome ∧ kfind p S = none := by
  rw [compare_directories, added_mem_compare_scans, ← kfind_isSome_iff_mem_keys,
    kfind_scanTree, kfind_scanTree]
  cases kfind p T <;> cases kfind p S <;> simp

theorem deleted_mem_compare_directories (hashFn : Content → D)
    {S T : List (Path × Content)} {p : Path} :
    FileDiff.Deleted p ∈ compare_directories hashFn S T ↔
      (kfind p S).isSome ∧ kfind p T = none := by
  rw [compare_directories, deleted_mem_compare_scans, ← kfind_isSome_iff_mem_keys,
    kfind_scanTree, kfind_scanTree]
  cases kfind p T <;> cases kfind p S <;> simp

theorem modified_mem_compare_directories (hashFn : Content → D)
    {S T : List (Path × Content)} {p : Path} (hT : NodK T) :
    FileDiff.Modified p ∈ compare_directories hashFn S T ↔
      ∃ cs ct, kfind p S = some cs ∧ kfind p T = some ct ∧
        infoOf hashFn cs ≠ infoOf hashFn ct := by
  rw [compare_directories, modified_mem_compare_scans (nodK_scanTree hashFn hT)]
  rw [kfind_scanTree, kfind_scanTree]
  cases hks : kfind p S with
  | none => simp
  | some cs =>
    cases hkt : kfind p T with
    | none => simp
    | some ct => simp [infoOf]

/-- The full description of a successfully created patch, at lookup level:
the manifest records exactly the additions (target digests), the modification
chains (source and target digests of records that differ), and the deletions;
the staged bodies carry exactly the corresponding target contents. -/
theorem createPatch_desc (hashFn : Content → D) (S T : List (Path × Content))
    (hT : NodK T) (P : Patch D) (hp : createPatch hashFn S T = .ok (some P)) :
    (∀ p, kfind p P.checksums.added =
      match kfind p S, kfind p T with
      | none, some c => some (hashFn c)
      | _, _ => none) ∧
    (∀ p, kfind p P.addedBodies =
      match kfind p S, kfind p T with
      | none, some c => some c
      | _, _ => none) ∧
    (∀ p, kfind p P.checksums.modified =
      match kfind p S, kfind p T with
      | some cs, some ct =>
          if infoOf hashFn cs ≠ infoOf hashFn ct then some ⟨hashFn cs, hashFn ct⟩ else none
      | _, _ => none) ∧
    (∀ p, kfind p P.modifiedBodies =
      match kfind p S, kfind p T with
      | some cs, some ct =>
          if infoOf hashFn cs ≠ infoOf hashFn ct then some ct else none
      | _, _ => none) ∧
    (∀ p, p ∈ P.checksums.deleted ↔ (kfind p S).isSome ∧ kfind p T = none) ∧
    (∀ p c, (p, c) ∈ P.addedBodies → kfind p T = some c) ∧
    (∀ p c, (p, c) ∈ P.modifiedBodies → kfind p T = some c) := by
  have hA : ∀ p, FileDiff.Added p ∈ compare_directories hashFn S T → (kfind p T).isSome :=
    fun p h => ((added_mem_compare_directories hashFn).mp h).1
  have hM : ∀ p, FileDiff.Modified p ∈ compare_directories hashFn S T →
      (kfind p S).isSome ∧ (kfind p T).isSome := by
    intro p h
    obtain ⟨cs, ct, h1, h2, h3⟩ := (modified_mem_compare_directories hashFn hT).mp h
    exact ⟨by simp [h1], by simp [h2]⟩
  have hP : P = processDiffsT hashFn S T emptyPatch (compare_directories hashFn S T) := by
    rw [createPatch] at hp
    by_cases hempty : (compare_directories hashFn S T).isEmpty
    · rw [if_pos hempty] at hp
      cases hp
    · rw [if_neg hempty, processDiffs_eq_total hashFn S T _ hA hM] at hp
      simpa [Except.map] using hp.symm
  obtain ⟨cA, cAB, cM, cMB, cD⟩ :=
    processDiffsT_spec hashFn S T (compare_directories hashFn S T) hA hM emptyPatch
  subst hP
  refine ⟨fun p => ?_, fun p => ?_, fun p => ?_, fun p => ?_, fun p => ?_,
    ?_, ?_⟩
  · rw [cA p]
    by_cases hmem : FileDiff.Added p ∈ compare_directories hashFn S T
    · obtain ⟨h1, h2⟩ := (added_mem_compare_directories hashFn).mp hmem
      obtain ⟨c, hc⟩ := Option.isSome_iff_exists.mp h1
      simp [hmem, h2, hc, emptyPatch]
    · rw [if_neg hmem]
      rcases hks : kfind p S with _ | cs <;> rcases hkt : kfind p T with _ | ct <;>
        simp [emptyPatch]
      exact absurd ((added_mem_compare_directories hashFn).mpr
        (by simp [hks, hkt])) hmem
  · rw [cAB p]
    by_cases hmem : FileDiff.Added p ∈ compare_directories hashFn S T
    · obtain ⟨h1, h2⟩ := (added_mem_compare_directories hashFn).mp hmem
      obtain ⟨c, hc⟩ := Option.isSome_iff_exists.mp h1
      simp [hmem, h2, hc, emptyPatch]
    · rw [if_neg hmem]
      rcases hks : kfind p S with _ | cs <;> rcases hkt : kfind p T with _ | ct <;>
        simp [emptyPatch]
      exact absurd ((added_mem_compare_directories hashFn).mpr
        (by simp [hks, hkt])) hmem
  · rw [cM p]
    by_cases hmem : FileDiff.Modified p ∈ compare_directories hashFn S T
    · obtain ⟨cs, ct, h1, h2, h3⟩ := (modified_mem_compare_directories hashFn hT).mp hmem
      simp [hmem, h1, h2, h3]
    · rw [if_neg hmem]
      rcases hks : kfind p S with _ | cs <;> rcases hkt : kfind p T with _ | ct <;>
        simp [emptyPatch]
      by_cases hinfo : infoOf hashFn cs = infoOf hashFn ct
      · simp [hinfo]
      · exact absurd ((modified_mem_compare_directories hashFn hT).mpr
          ⟨cs, ct, hks, hkt, hinfo⟩) hmem
  · rw [cMB p]
    by_cases hmem : FileDiff.Modified p ∈ compare_directories hashFn S T
    · obtain ⟨cs, ct, h1, h2, h3⟩ := (modified_mem_compare_directories hashFn hT).mp hmem
      simp [hmem, h1, h2, h3]
    · rw [if_neg hmem]
      rcases hks : kfind p S with _ | cs <;> rcases hkt : kfind p T with _ | ct <;>
        simp [emptyPatch]
      by_cases hinfo : infoOf hashFn cs = infoOf hashFn ct
      · simp [hinfo]
      · exact absurd ((modified_mem_compare_directories hashFn hT).mpr
          ⟨cs, ct, hks, hkt, hinfo⟩) hmem
  · rw [cD p]
    simp [emptyPatch]
    exact deleted_mem_compare_directories hashFn
  · exact processDiffsT_addedBodies_value hashFn S T _ emptyPatch
      (by intro p c h; simp [emptyPatch] at h)
  · exact processDiffsT_modifiedBodies_value hashFn S T _ emptyPatch
      (by intro p c h; simp [emptyPatch] at h)

/-- C3: diff/apply round trip. If `P` is the patch `create_patch` generates
from source `S` to target `T`, then applying `P` to a copy of `S` succeeds and
produces a tree whose path-to-digest mapping equals that of `T`. -/
theorem diff_apply_roundtrip (hashFn : Content → D) (S T : List (Path × Content))
    (hS : NodK S) (hT : NodK T) (P : Patch D)
    (hp : createPatch hashFn S T = .ok (some P)) :
    ∃ t ws, apply_patch hashFn S P = .ok (t, ws) ∧
      ∀ p, (kfind p t).map hashFn = (kfind p T).map hashFn := by
  obtain ⟨cA, cAB, cM, cMB, cD, hfa, hfm⟩ := createPatch_desc hashFn S T hT P hp
  rw [apply_patch, apply_modifications_eq]
  refine ⟨_, _, rfl, fun p => ?_⟩
  have hfunA : ∀ c₁ c₂, (p, c₁) ∈ P.addedBodies → (p, c₂) ∈ P.addedBodies → c₁ = c₂ := by
    intro c₁ c₂ h₁ h₂
    have e₁ := hfa p c₁ h₁
    have e₂ := hfa p c₂ h₂
    rw [e₁] at e₂
    exact Option.some_injective _ e₂
  have hfunM : ∀ c₁ c₂, (p, c₁) ∈ P.modifiedBodies → (p, c₂) ∈ P.modifiedBodies → c₁ = c₂ := by
    intro c₁ c₂ h₁ h₂
    have e₁ := hfm p c₁ h₁
    have e₂ := hfm p c₂ h₂
    rw [e₁] at e₂
    exact Option.some_injective _ e₂
  rw [kfind_apply_additions p P.modifiedBodies hfunM,
    kfind_apply_additions p P.addedBodies hfunA]
  have hdel : kfind p (apply_deletions S P.checksums) =
      if p ∈ P.checksums.deleted then none else kfind p S := by
    rw [apply_deletions]
    exact kfind_apply_deletions p _ S
  rw [hdel, cMB p, cAB p]
  rcases hks : kfind p S with _ | cs <;> rcases hkt : kfind p T with _ | ct
  · have hnd : p ∉ P.checksums.deleted := by rw [cD p]; simp [hks]
    simp [hnd, hks]
  · simp
  · have hd : p ∈ P.checksums.deleted := by rw [cD p]; simp [hks, hkt]
    simp [hd]
  · by_cases hinfo : infoOf hashFn cs = infoOf hashFn ct
    · have hnd : p ∉ P.checksums.deleted := by rw [cD p]; simp [hkt]
      simp [hinfo, hnd]
      exact congrArg FileInfo.hash hinfo
    · simp [hinfo]

/-- Witness for `diff_apply_roundtrip` with an empty source and a one-file
target (digesting by length). -/
theorem diff_apply_roundtrip_witness :
    ∃ t ws,
      apply_patch (fun c => c.length) []
          (⟨⟨[("a", 1)], [], []⟩, [("a", [0])], []⟩ : Patch Nat) = .ok (t, ws) ∧
        ∀ p, (kfind p t).map (fun c => c.length) =
          (kfind p [(("a" : Path), ([0] : Content))]).map (fun c => c.length) :=
  diff_apply_roundtrip (fun c => c.length) [] [("a", [0])]
    (by simp [NodK, keysOf]) (by simp [NodK, keysOf])
    (⟨⟨[("a", 1)], [], []⟩, [("a", [0])], []⟩ : Patch Nat) (by decide)

end CreateSpec

section MergeModel

variable {D : Type} [DecidableEq D]

/-- Loop body of `merge_added_files` (`src/patch/merge.rs` lines 88-106). -/
def merge_added_step (cs2 : Checksums D) (m : Checksums D) (pa : Path × D) : Checksums D :=
  if pa.1 ∈ cs2.deleted then m
  else
    match kfind pa.1 cs2.modified with
    | some sm => { m with added := (pa.1, sm.modified) :: m.added }
    | none =>
        match kfind pa.1 cs2.added with
        | some h2 => { m with added := (pa.1, h2) :: m.added }
        | none => { m with added := (pa.1, pa.2) :: m.added }

/-- `merge_added_files` (`src/patch/merge.rs` lines 82-107): walk the first
patch's added map; a path deleted by the second patch is dropped, a path
modified by the second patch is re-expressed as an addition carrying the
second patch's modified digest, a path re-added by the second patch takes the
second digest, and otherwise the first digest is kept. -/
def merge_added_files (cs1 cs2 : Checksums D) (m : Checksums D) : Checksums D :=
  cs1.added.foldl (merge_added_step cs2) m

/-- Loop body of the second-additions loop of `merge_checksums`
(lines 67-71). -/
def merge_second_step (m : Checksums D) (pa : Path × D) : Checksums D :=
  if (kfind pa.1 m.added).isSome then m
  else { m with added := (pa.1, pa.2) :: m.added }

/-- The second loop of `merge_checksums` (lines 67-71): additions of the
second patch not already present in the merged added map. -/
def merge_second_added (cs2 : Checksums D) (m : Checksums D) : Checksums D :=
  cs2.added.foldl merge_second_step m

/-- Loop body of the first loop of `merge_modified_files`
(lines 115-130). -/
def merge_modified_first_step (cs2 : Checksums D) (m : Checksums D)
    (pc : Path × ModifiedChecksum D) : Checksums D :=
  if pc.1 ∈ cs2.deleted then { m with deleted := m.deleted ++ [pc.1] }
  else
    match kfind pc.1 cs2.modified with
    | some c2 => { m with modified := (pc.1, ⟨pc.2.original, c2.modified⟩) :: m.modified }
    | none => { m with modified := (pc.1, pc.2) :: m.modified }

/-- First loop of `merge_modified_files` (lines 115-130): a modification
followed by a deletion becomes a deletion; two modifications chain
`{P1.original, P2.modified}`; otherwise the first chain is kept. -/
def merge_modified_first (cs1 cs2 : Checksums D) (m : Checksums D) : Checksums D :=
  cs1.modified.foldl (merge_modified_first_step cs2) m

/-- Loop body of the second loop of `merge_modified_files`
(lines 132-136). -/
def merge_modified_second_step (m : Checksums D)
    (pc : Path × ModifiedChecksum D) : Checksums D :=
  if (kfind pc.1 m.modified).isSome ∨ (kfind pc.1 m.added).isSome then m
  else { m with modified := (pc.1, pc.2) :: m.modified }

/-- Second loop of `merge_modified_files` (lines 132-136): modifications of
the second patch for paths not already merged as modified or added. -/
def merge_modified_second (cs2 : Checksums D) (m : Checksums D) : Checksums D :=
  cs2.modified.foldl merge_modified_second_step m

/-- `merge_modified_files` (lines 109-137). -/
def merge_modified_files (cs1 cs2 : Checksums D) (m : Checksums D) : Checksums D :=
  merge_modified_second cs2 (merge_modified_first cs1 cs2 m)

/-- Loop body of the first loop of `merge_deleted_files`
(lines 140-148). -/
def merge_deleted_first_step (cs2 : Checksums D) (m : Checksums D) (p : Path) :
    Checksums D :=
  if (kfind p cs2.added).isSome then m
  else if p ∈ m.deleted then m
  else { m with deleted := m.deleted ++ [p] }

/-- First loop of `merge_deleted_files` (lines 140-148): deletions of the
first patch survive unless the second patch re-adds the path. -/
def merge_deleted_first (cs1 cs2 : Checksums D) (m : Checksums D) : Checksums D :=
  cs1.deleted.foldl (merge_deleted_first_step cs2) m

/-- Loop body of the second loop of `merge_deleted_files`
(lines 150-154). -/
def merge_deleted_second_step (cs1 : Checksums D) (m : Checksums D) (p : Path) :
    Checksums D :=
  if p ∉ m.deleted ∧ ¬ (kfind p cs1.added).isSome then
    { m with deleted := m.deleted ++ [p] }
  else m

/-- Second loop of `merge_deleted_files` (lines 150-154): deletions of the
second patch survive unless the first patch added the path. -/
def merge_deleted_second (cs1 cs2 : Checksums D) (m : Checksums D) : Checksums D :=
  cs2.deleted.foldl (merge_deleted_second_step cs1) m

/-- `merge_deleted_files` (lines 139-155). -/
def merge_deleted_files (cs1 cs2 : Checksums D) (m : Checksums D) : Checksums D :=
  merge_deleted_second cs1 cs2 (merge_deleted_first cs1 cs2 m)

/-- `merge_checksums` (`src/patch/merge.rs` lines 59-80): first-patch
additions, second-patch additions, modifications, deletions, in that order. -/
def merge_checksums (cs1 cs2 : Checksums D) : Checksums D :=
  merge_deleted_files cs1 cs2
    (merge_modified_files cs1 cs2
      (merge_second_added cs2
        (merge_added_files cs1 cs2 ⟨[], [], []⟩)))

/-- The digest `merge_added_files` records for a kept first-patch addition. -/
def merge_added_value (cs2 : Checksums D) (p : Path) (h : D) : D :=
  match kfind p cs2.modified with
  | some sm => sm.modified
  | none =>
      match kfind p cs2.added with
      | some h2 => h2
      | none => h

theorem merge_added_step_eq (cs2 : Checksums D) (m : Checksums D) (q : Path) (a : D) :
    merge_added_step cs2 m (q, a) =
      if q ∈ cs2.deleted then m
      else { m with added := (q, merge_added_value cs2 q a) :: m.added } := by
  rw [merge_added_step, merge_added_value]
  by_cases hdel : q ∈ cs2.deleted
  · simp [hdel]
  · cases hm2 : kfind q cs2.modified <;> cases ha2 : kfind q cs2.added <;> simp [hdel]

theorem foldl_merge_added_modified (cs2 : Checksums D) (l : List (Path × D)) :
    ∀ m : Checksums D, (l.foldl (merge_added_step cs2) m).modified = m.modified := by
  induction l with
  | nil => intro m; rfl
  | cons pa rest ih =>
    intro m
    obtain ⟨q, a⟩ := pa
    rw [List.foldl_cons, ih, merge_added_step_eq]
    by_cases hdel : q ∈ cs2.deleted <;> simp [hdel]

theorem foldl_merge_added_deleted (cs2 : Checksums D) (l : List (Path × D)) :
    ∀ m : Checksums D, (l.foldl (merge_added_step cs2) m).deleted = m.deleted := by
  induction l with
  | nil => intro m; rfl
  | cons pa rest ih =>
    intro m
    obtain ⟨q, a⟩ := pa
    rw [List.foldl_cons, ih, merge_added_step_eq]
    by_cases hdel : q ∈ cs2.deleted <;> simp [hdel]

theorem foldl_merge_added_kfind (cs2 : Checksums D) (p : Path) :
    ∀ (l : List (Path × D)), FuncK l → ∀ m : Checksums D,
      kfind p (l.foldl (merge_added_step cs2) m).added =
        match kfind p l with
        | some h =>
            if p ∈ cs2.deleted then kfind p m.added
            else some (merge_added_value cs2 p h)
        | none => kfind p m.added := by
  intro l
  induction l with
  | nil => intro _ m; simp
  | cons pa rest ih =>
    intro hf m
    have hf' : FuncK rest := fun q' a' b' ha hb =>
      hf q' a' b' (List.mem_cons_of_mem _ ha) (List.mem_cons_of_mem _ hb)
    obtain ⟨q, a⟩ := pa
    rw [List.foldl_cons, ih hf', merge_added_step_eq]
    by_cases hq : q = p
    · subst hq
      by_cases hdel : q ∈ cs2.deleted
      · rcases hr : kfind q rest with _ | h' <;> simp [kfind, hdel, hr]
      · rcases hr : kfind q rest with _ | h'
        · simp [kfind, hdel, hr]
        · have he : h' = a := hf q h' a
            (List.mem_cons_of_mem _ (kfind_eq_some_mem hr)) (List.mem_cons_self _ _)
          subst he
          simp [kfind, hdel, hr]
    · rcases hr : kfind p rest with _ | h' <;> by_cases hdel : q ∈ cs2.deleted <;>
        simp [kfind, hq, hdel, hr]

theorem merge_second_step_eq (m : Checksums D) (q : Path) (a : D) :
    merge_second_step m (q, a) =
      if (kfind q m.added).isSome then m
      else { m with added := (q, a) :: m.added } := rfl

theorem foldl_merge_second_modified (l : List (Path × D)) :
    ∀ m : Checksums D, (l.foldl merge_second_step m).modified = m.modified := by
  induction l with
  | nil => intro m; rfl
  | cons pa rest ih =>
    intro m
    obtain ⟨q, a⟩ := pa
    rw [List.foldl_cons, ih, merge_second_step_eq]
    by_cases hs : (kfind q m.added).isSome <;> simp [hs]

theorem foldl_merge_second_deleted (l : List (Path × D)) :
    ∀ m : Checksums D, (l.foldl merge_second_step m).deleted = m.deleted := by
  induction l with
  | nil => intro m; rfl
  | cons pa rest ih =>
    intro m
    obtain ⟨q, a⟩ := pa
    rw [List.foldl_cons, ih, merge_second_step_eq]
    by_cases hs : (kfind q m.added).isSome <;> simp [hs]

theorem foldl_merge_second_kfind (p : Path) (l : List (Path × D)) :
    ∀ m : Checksums D,
      kfind p (l.foldl merge_second_step m).added =
        ofirst (kfind p m.added) (kfind p l) := by
  induction l with
  | nil =>
    intro m
    rcases hm : kfind p m.added with _ | b <;> simp [hm]
  | cons pa rest ih =>
    intro m
    obtain ⟨q, a⟩ := pa
    rw [List.foldl_cons, ih, merge_second_step_eq]
    by_cases hq : q = p
    · subst hq
      rcases hm : kfind q m.added with _ | b
      · simp [hm, kfind]
      · simp [hm, kfind]
    · rcases hm : kfind q m.added with _ | b <;> simp [hm, kfind, hq]

/-- The chain `merge_modified_files` records for a kept first-patch
modification. -/
def merge_modified_value (cs2 : Checksums D) (p : Path) (c : ModifiedChecksum D) :
    ModifiedChecksum D :=
  match kfind p cs2.modified with
  | some c2 => ⟨c.original, c2.modified⟩
  | none => c

theorem merge_modified_first_step_eq (cs2 : Checksums D) (m : Checksums D)
    (q : Path) (c : ModifiedChecksum D) :
    merge_modified_first_step cs2 m (q, c) =
      if q ∈ cs2.deleted then { m with deleted := m.deleted ++ [q] }
      else { m with modified := (q, merge_modified_value cs2 q c) :: m.modified } := by
  rw [merge_modified_first_step, merge_modified_value]
  by_cases hdel : q ∈ cs2.deleted
  · simp [hdel]
  · cases hm2 : kfind q cs2.modified <;> simp [hdel]

theorem foldl_merge_modified_first_added (cs2 : Checksums D)
    (l : List (Path × ModifiedChecksum D)) :
    ∀ m : Checksums D, (l.foldl (merge_modified_first_step cs2) m).added = m.added := by
  induction l with
  | nil => intro m; rfl
  | cons pc rest ih =>
    intro m
    obtain ⟨q, c⟩ := pc
    rw [List.foldl_cons, ih, merge_modified_first_step_eq]
    by_cases hdel : q ∈ cs2.deleted <;> simp [hdel]

theorem foldl_merge_modified_first_kfind (cs2 : Checksums D) (p : Path) :
    ∀ (l : List (Path × ModifiedChecksum D)), FuncK l → ∀ m : Checksums D,
      kfind p (l.foldl (merge_modified_first_step cs2) m).modified =
        match kfind p l with
        | some c1 =>
            if p ∈ cs2.deleted then kfind p m.modified
            else some (merge_modified_value cs2 p c1)
        | none => kfind p m.modified := by
  intro l
  induction l with
  | nil => intro _ m; simp
  | cons pc rest ih =>
    intro hf m
    have hf' : FuncK rest := fun q' a' b' ha hb =>
      hf q' a' b' (List.mem_cons_of_mem _ ha) (List.mem_cons_of_mem _ hb)
    obtain ⟨q, c⟩ := pc
    rw [List.foldl_cons, ih hf', merge_modified_first_step_eq]
    by_cases hq : q = p
    · subst hq
      by_cases hdel : q ∈ cs2.deleted
      · rcases hr : kfind q rest with _ | c' <;> simp [kfind, hdel, hr]
      · rcases hr : kfind q rest with _ | c'
        · simp [kfind, hdel, hr]
        · have he : c' = c := hf q c' c
            (List.mem_cons_of_mem _ (kfind_eq_some_mem hr)) (List.mem_cons_self _ _)
          subst he
          simp [kfind, hdel, hr]
    · rcases hr : kfind p rest with _ | c' <;> by_cases hdel : q ∈ cs2.deleted <;>
        simp [kfind, hq, hdel, hr]

theorem foldl_merge_modified_first_deleted (cs2 : Checksums D) (q : Path) :
    ∀ (l : List (Path × ModifiedChecksum D)) (m : Checksums D),
      q ∈ (l.foldl (merge_modified_first_step cs2) m).deleted ↔
        q ∈ m.deleted ∨ (q ∈ keysOf l ∧ q ∈ cs2.deleted) := by
  intro l
  induction l with
  | nil => intro m; simp [keysOf]
  | cons pc rest ih =>
    intro m
    obtain ⟨r, c⟩ := pc
    rw [List.foldl_cons, merge_modified_first_step_eq, ih]
    by_cases hqr : q = r
    · subst hqr
      by_cases hdel : q ∈ cs2.deleted <;> simp [hdel, keysOf] <;> tauto
    · by_cases hdel : r ∈ cs2.deleted <;> simp [hdel, keysOf, hqr] <;> tauto

theorem foldl_merge_modified_second_added (l : List (Path × ModifiedChecksum D)) :
    ∀ m : Checksums D, (l.foldl merge_modified_second_step m).added = m.added := by
  induction l with
  | nil => intro m; rfl
  | cons pc rest ih =>
    intro m
    obtain ⟨q, c⟩ := pc
    rw [List.foldl_cons, ih, merge_modified_second_step]
    by_cases hs : (kfind q m.modified).isSome ∨ (kfind q m.added).isSome <;> simp [hs]

theorem foldl_merge_modified_second_deleted (l : List (Path × ModifiedChecksum D)) :
    ∀ m : Checksums D, (l.foldl merge_modified_second_step m).deleted = m.deleted := by
  induction l with
  | nil => intro m; rfl
  | cons pc rest ih =>
    intro m
    obtain ⟨q, c⟩ := pc
    rw [List.foldl_cons, ih, merge_modified_second_step]
    by_cases hs : (kfind q m.modified).isSome ∨ (kfind q m.added).isSome <;> simp [hs]

theorem foldl_merge_modified_second_kfind (p : Path)
    (l : List (Path × ModifiedChecksum D)) :
    ∀ m : Checksums D,
      kfind p (l.foldl merge_modified_second_step m).modified =
        if (kfind p m.added).isSome then kfind p m.modified
        else ofirst (kfind p m.modified) (kfind p l) := by
  induction l with
  | nil =>
    intro m
    by_cases ha : (kfind p m.added).isSome
    · simp [ha]
    · rcases hm : kfind p m.modified with _ | v <;> simp [ha, hm]
  | cons pc rest ih =>
    intro m
    obtain ⟨q, c⟩ := pc
    rw [List.foldl_cons, merge_modified_second_step, ih]
    by_cases hq : q = p
    · subst hq
      by_cases hguard : (kfind q m.modified).isSome ∨ (kfind q m.added).isSome
      · rw [if_pos hguard]
        by_cases ha : (kfind q m.added).isSome
        · simp [ha]
        · have hmod : (kfind q m.modified).isSome := hguard.resolve_right ha
          rcases hm : kfind q m.modified with _ | v
          · rw [hm] at hmod; cases hmod
          · simp [ha, hm, kfind]
      · rw [if_neg hguard]
        push_neg at hguard
        obtain ⟨hmod, ha⟩ := hguard
        rcases hm : kfind q m.modified with _ | v
        · simp [ha, hm, kfind]
        · rw [hm] at hmod; simp at hmod
    · by_cases hguard : (kfind q m.modified).isSome ∨ (kfind q m.added).isSome
      · rw [if_pos hguard]
        simp [kfind, hq]
      · rw [if_neg hguard]
        simp [kfind, hq]

theorem foldl_merge_deleted_first_added (cs2 : Checksums D) (l : List Path) :
    ∀ m : Checksums D, (l.foldl (merge_deleted_first_step cs2) m).added = m.added := by
  induction l with
  | nil => intro m; rfl
  | cons r rest ih =>
    intro m
    rw [List.foldl_cons, ih, merge_deleted_first_step]
    by_cases h1 : (kfind r cs2.added).isSome
    · simp [h1]
    · by_cases h2 : r ∈ m.deleted <;> simp [h1, h2]

theorem foldl_merge_deleted_first_modified (cs2 : Checksums D) (l : List Path) :
    ∀ m : Checksums D,
      (l.foldl (merge_deleted_first_step cs2) m).modified = m.modified := by
  induction l with
  | nil => intro m; rfl
  | cons r rest ih =>
    intro m
    rw [List.foldl_cons, ih, merge_deleted_first_step]
    by_cases h1 : (kfind r cs2.added).isSome
    · simp [h1]
    · by_cases h2 : r ∈ m.deleted <;> simp [h1, h2]

theorem foldl_merge_deleted_first_mem (cs2 : Checksums D) (q : Path) (l : List Path) :
    ∀ m : Checksums D,
      q ∈ (l.foldl (merge_deleted_first_step cs2) m).deleted ↔
        q ∈ m.deleted ∨ (q ∈ l ∧ ¬ (kfind q cs2.added).isSome) := by
  induction l with
  | nil => intro m; simp
  | cons r rest ih =>
    intro m
    rw [List.foldl_cons, merge_deleted_first_step, ih]
    by_cases h1 : (kfind r cs2.added).isSome
    · rw [if_pos h1]
      constructor
      · rintro (h | h)
        · exact Or.inl h
        · exact Or.inr ⟨List.mem_cons_of_mem _ h.1, h.2⟩
      · rintro (h | ⟨hm, hs⟩)
        · exact Or.inl h
        · rcases List.mem_cons.mp hm with rfl | hm'
          · exact absurd h1 hs
          · exact Or.inr ⟨hm', hs⟩
    · rw [if_neg h1]
      by_cases h2 : r ∈ m.deleted
      · rw [if_pos h2]
        constructor
        · rintro (h | h)
          · exact Or.inl h
          · exact Or.inr ⟨List.mem_cons_of_mem _ h.1, h.2⟩
        · rintro (h | ⟨hm, hs⟩)
          · exact Or.inl h
          · rcases List.mem_cons.mp hm with rfl | hm'
            · exact Or.inl h2
            · exact Or.inr ⟨hm', hs⟩
      · rw [if_neg h2]
        constructor
        · rintro (h | h)
          · rcases List.mem_append.mp h with h' | h'
            · exact Or.inl h'
            · rcases List.mem_singleton.mp h' with rfl
              exact Or.inr ⟨List.mem_cons_self _ _, h1⟩
          · exact Or.inr ⟨List.mem_cons_of_mem _ h.1, h.2⟩
        · rintro (h | ⟨hm, hs⟩)
          · exact Or.inl (List.mem_append_left _ h)
          · rcases List.mem_cons.mp hm with rfl | hm'
            · exact Or.inl (List.mem_append_right _ (List.mem_singleton.mpr rfl))
            · exact Or.inr ⟨hm', hs⟩

theorem foldl_merge_deleted_second_added (cs1 : Checksums D) (l : List Path) :
    ∀ m : Checksums D,
      (l.foldl (merge_deleted_second_step cs1) m).added = m.added := by
  induction l with
  | nil => intro m; rfl
  | cons r rest ih =>
    intro m
    rw [List.foldl_cons, ih, merge_deleted_second_step]
    by_cases h1 : r ∉ m.deleted ∧ ¬ (kfind r cs1.added).isSome
    · rw [if_pos h1]
    · rw [if_neg h1]

theorem foldl_merge_deleted_second_modified (cs1 : Checksums D) (l : List Path) :
    ∀ m : Checksums D,
      (l.foldl (merge_deleted_second_step cs1) m).modified = m.modified := by
  induction l with
  | nil => intro m; rfl
  | cons r rest ih =>
    intro m
    rw [List.foldl_cons, ih, merge_deleted_second_step]
    by_cases h1 : r ∉ m.deleted ∧ ¬ (kfind r cs1.added).isSome
    · rw [if_pos h1]
    · rw [if_neg h1]

theorem foldl_merge_deleted_second_mem (cs1 : Checksums D) (q : Path) (l : List Path) :
    ∀ m : Checksums D,
      q ∈ (l.foldl (merge_deleted_second_step cs1) m).deleted ↔
        q ∈ m.deleted ∨ (q ∈ l ∧ ¬ (kfind q cs1.added).isSome) := by
  induction l with
  | nil => intro m; simp
  | cons r rest ih =>
    intro m
    rw [List.foldl_cons, merge_deleted_second_step, ih]
    by_cases h1 : r ∉ m.deleted ∧ ¬ (kfind r cs1.added).isSome
    · rw [if_pos h1]
      constructor
      · rintro (h | h)
        · rcases List.mem_append.mp h with h' | h'
          · exact Or.inl h'
          · rcases List.mem_singleton.mp h' with rfl
            exact Or.inr ⟨List.mem_cons_self _ _, h1.2⟩
        · exact Or.inr ⟨List.mem_cons_of_mem _ h.1, h.2⟩
      · rintro (h | ⟨hm, hs⟩)
        · exact Or.inl (List.mem_append_left _ h)
        · rcases List.mem_cons.mp hm with rfl | hm'
          · exact Or.inl (List.mem_append_right _ (List.mem_singleton.mpr rfl))
          · exact Or.inr ⟨hm', hs⟩
    · rw [if_neg h1]
      constructor
      · rintro (h | h)
        · exact Or.inl h
        · exact Or.inr ⟨List.mem_cons_of_mem _ h.1, h.2⟩
      · rintro (h | ⟨hm, hs⟩)
        · exact Or.inl h
        · rcases List.mem_cons.mp hm with rfl | hm'
          · rcases not_and_or.mp h1 with h' | h'
            · exact Or.inl (not_not.mp h')
            · exact absurd hs h'
          · exact Or.inr ⟨hm', hs⟩

/-- The contribution of the first-patch modification loop at one path. -/
def merge_modified_first_value (cs1 cs2 : Checksums D) (p : Path) :
    Option (ModifiedChecksum D) :=
  match kfind p cs1.modified with
  | some c1 => if p ∈ cs2.deleted then none else some (merge_modified_value cs2 p c1)
  | none => none

theorem merged_added_kfind (cs1 cs2 : Checksums D) (hf : FuncK cs1.added) (p : Path) :
    kfind p (merge_checksums cs1 cs2).added =
      match kfind p cs1.added with
      | some h =>
          if p ∈ cs2.deleted then kfind p cs2.added
          else some (merge_added_value cs2 p h)
      | none => kfind p cs2.added := by
  rw [merge_checksums, merge_deleted_files, merge_deleted_second,
    foldl_merge_deleted_second_added, merge_deleted_first,
    foldl_merge_deleted_first_added, merge_modified_files, merge_modified_second,
    foldl_merge_modified_second_added, merge_modified_first,
    foldl_merge_modified_first_added, merge_second_added, foldl_merge_second_kfind,
    merge_added_files, foldl_merge_added_kfind cs2 p cs1.added hf]
  rcases h1 : kfind p cs1.added with _ | h
  · simp
  · by_cases hdel : p ∈ cs2.deleted
    · simp [hdel]
    · simp [hdel]

theorem merged_modified_kfind (cs1 cs2 : Checksums D) (hfm : FuncK cs1.modified)
    (p : Path) :
    kfind p (merge_checksums cs1 cs2).modified =
      if (kfind p (merge_checksums cs1 cs2).added).isSome then
        merge_modified_first_value cs1 cs2 p
      else
        ofirst (merge_modified_first_value cs1 cs2 p) (kfind p cs2.modified) := by
  have hfirst : kfind p (merge_modified_first cs1 cs2
      (merge_second_added cs2 (merge_added_files cs1 cs2 ⟨[], [], []⟩))).modified =
      merge_modified_first_value cs1 cs2 p := by
    rw [merge_modified_first, foldl_merge_modified_first_kfind cs2 p cs1.modified hfm,
      merge_second_added, foldl_merge_second_modified, merge_added_files,
      foldl_merge_added_modified, merge_modified_first_value]
    rcases h1 : kfind p cs1.modified with _ | c1
    · simp
    · by_cases hdel : p ∈ cs2.deleted <;> simp [hdel]
  rw [merge_checksums, merge_deleted_files, merge_deleted_second,
    foldl_merge_deleted_second_modified, merge_deleted_first,
    foldl_merge_deleted_first_modified, merge_modified_files, merge_modified_second,
    foldl_merge_modified_second_kfind, hfirst, merge_modified_first,
    foldl_merge_modified_first_added, foldl_merge_deleted_second_added,
    foldl_merge_deleted_first_added, foldl_merge_modified_second_added,
    foldl_merge_modified_first_added]

theorem merged_deleted_mem (cs1 cs2 : Checksums D) (q : Path) :
    q ∈ (merge_checksums cs1 cs2).deleted ↔
      (q ∈ keysOf cs1.modified ∧ q ∈ cs2.deleted) ∨
      (q ∈ cs1.deleted ∧ ¬ (kfind q cs2.added).isSome) ∨
      (q ∈ cs2.deleted ∧ ¬ (kfind q cs1.added).isSome) := by
  rw [merge_checksums, merge_deleted_files, merge_deleted_second,
    foldl_merge_deleted_second_mem, merge_deleted_first,
    foldl_merge_deleted_first_mem, merge_modified_files, merge_modified_second,
    foldl_merge_modified_second_deleted, merge_modified_first,
    foldl_merge_modified_first_deleted, merge_second_added,
    foldl_merge_second_deleted, merge_added_files, foldl_merge_added_deleted]
  simp
  tauto

/-- `find_added_source` (`src/patch/merge.rs` lines 206-214): prefer the
second patch's `added/` body, then its `modified/` body, then fall back to
the first patch's `added/` body (which may be absent). -/
def find_added_source (p1 p2 : Patch D) (p : Path) : Option Content :=
  match kfind p p2.addedBodies with
  | some c => some c
  | none =>
      match kfind p p2.modifiedBodies with
      | some c => some c
      | none => kfind p p1.addedBodies

/-- The modified-body sourcing of `copy_merged_files` (lines 187-201):
prefer the second patch's `modified/` body, else the first patch's. -/
def find_modified_source (p1 p2 : Patch D) (p : Path) : Option Content :=
  match kfind p p2.modifiedBodies with
  | some c => some c
  | none => kfind p p1.modifiedBodies

/-- `copy_merged_files` (lines 164-204): stage a body for every added and
modified key of the merged manifest whose source file exists. -/
def copy_merged_files (p1 p2 : Patch D) (mc : Checksums D) :
    List (Path × Content) × List (Path × Content) :=
  ((keysOf mc.added).filterMap (fun p => (find_added_source p1 p2 p).map (fun c => (p, c))),
   (keysOf mc.modified).filterMap (fun p => (find_modified_source p1 p2 p).map (fun c => (p, c))))

/-- `merge_patches` (`src/patch/merge.rs` lines 11-57), restricted to its
semantic content: the merged manifest plus the staged bodies of the output
container. -/
def merge_patches (p1 p2 : Patch D) : Patch D :=
  ⟨merge_checksums p1.checksums p2.checksums,
   (copy_merged_files p1 p2 (merge_checksums p1.checksums p2.checksums)).1,
   (copy_merged_files p1 p2 (merge_checksums p1.checksums p2.checksums)).2⟩

theorem kfind_filterMap_keys (f : Path → Option Content) (l : List Path) (p : Path) :
    kfind p (l.filterMap (fun q => (f q).map (fun c => (q, c)))) =
      if p ∈ l then f p else none := by
  induction l with
  | nil => simp
  | cons q rest ih =>
    rcases hf : f q with _ | c
    · by_cases hq : p = q
      · subst hq
        by_cases hr : p ∈ rest <;> simp [List.filterMap_cons, hf, ih, hr]
      · simp [List.filterMap_cons, hf, ih, hq]
    · by_cases hq : q = p
      · subst hq
        simp [List.filterMap_cons, hf, kfind, ih]
      · have hpq : ¬ p = q := fun h => hq h.symm
        simp [List.filterMap_cons, hf, kfind, hq, hpq, ih]

theorem mem_filterMap_keys (f : Path → Option Content) (l : List Path) (p : Path)
    (c : Content)
    (h : (p, c) ∈ l.filterMap (fun q => (f q).map (fun c => (q, c)))) :
    f p = some c := by
  rcases List.mem_filterMap.mp h with ⟨q, _, hq⟩
  rcases hf : f q with _ | c'
  · rw [hf] at hq; cases hq
  · rw [hf] at hq
    cases hq
    exact hf

theorem processDiffsT_added_value (hashFn : Content → D)
    (S T : List (Path × Content)) (diffs : List FileDiff) :
    ∀ acc : Patch D,
      (∀ p h, (p, h) ∈ acc.checksums.added → ∃ c, kfind p T = some c ∧ h = hashFn c) →
      ∀ p h, (p, h) ∈ (processDiffsT hashFn S T acc diffs).checksums.added →
        ∃ c, kfind p T = some c ∧ h = hashFn c := by
  induction diffs with
  | nil => intro acc hacc; exact hacc
  | cons d rest ih =>
    intro acc hacc
    rw [processDiffsT]
    refine ih (processOneDiffT hashFn S T acc d) ?_
    intro p h hm
    cases d with
    | Added q =>
      rcases hTq : kfind q T with _ | cq
      · rw [processOneDiffT, hTq] at hm
        exact hacc p h hm
      · rw [processOneDiffT, hTq] at hm
        rcases List.mem_cons.mp hm with he | he
        · cases he
          exact ⟨cq, hTq, rfl⟩
        · exact hacc p h he
    | Deleted q => exact hacc p h hm
    | Modified q =>
      rcases hSq : kfind q S with _ | cs <;> rcases hTq : kfind q T with _ | ct <;>
        rw [processOneDiffT, hSq, hTq] at hm <;> exact hacc p h hm

theorem processDiffsT_modified_value (hashFn : Content → D)
    (S T : List (Path × Content)) (diffs : List FileDiff) :
    ∀ acc : Patch D,
      (∀ p mc, (p, mc) ∈ acc.checksums.modified →
        ∃ cs ct, kfind p S = some cs ∧ kfind p T = some ct ∧ mc = ⟨hashFn cs, hashFn ct⟩) →
      ∀ p mc, (p, mc) ∈ (processDiffsT hashFn S T acc diffs).checksums.modified →
        ∃ cs ct, kfind p S = some cs ∧ kfind p T = some ct ∧
          mc = ⟨hashFn cs, hashFn ct⟩ := by
  induction diffs with
  | nil => intro acc hacc; exact hacc
  | cons d rest ih =>
    intro acc hacc
    rw [processDiffsT]
    refine ih (processOneDiffT hashFn S T acc d) ?_
    intro p mc hm
    cases d with
    | Added q =>
      rcases hTq : kfind q T with _ | cq <;>
        rw [processOneDiffT, hTq] at hm <;> exact hacc p mc hm
    | Deleted q => exact hacc p mc hm
    | Modified q =>
      rcases hSq : kfind q S with _ | cs <;> rcases hTq : kfind q T with _ | ct <;>
        rw [processOneDiffT, hSq, hTq] at hm
      · exact hacc p mc hm
      · exact hacc p mc hm
      · exact hacc p mc hm
      · rcases List.mem_cons.mp hm with he | he
        · cases he
          exact ⟨cs, ct, hSq, hTq, rfl⟩
        · exact hacc p mc he

/-- The checksum maps of a successfully created patch are functional: the
recorded digests are determined by the tree contents at the path. -/
theorem createPatch_funcK (hashFn : Content → D) (S T : List (Path × Content))
    (hT : NodK T) (P : Patch D) (hp : createPatch hashFn S T = .ok (some P)) :
    FuncK P.checksums.added ∧ FuncK P.checksums.modified := by
  have hA : ∀ p, FileDiff.Added p ∈ compare_directories hashFn S T → (kfind p T).isSome :=
    fun p h => ((added_mem_compare_directories hashFn).mp h).1
  have hM : ∀ p, FileDiff.Modified p ∈ compare_directories hashFn S T →
      (kfind p S).isSome ∧ (kfind p T).isSome := by
    intro p h
    obtain ⟨cs, ct, h1, h2, h3⟩ := (modified_mem_compare_directories hashFn hT).mp h
    exact ⟨by simp [h1], by simp [h2]⟩
  have hP : P = processDiffsT hashFn S T emptyPatch (compare_directories hashFn S T) := by
    rw [createPatch] at hp
    by_cases hempty : (compare_directories hashFn S T).isEmpty
    · rw [if_pos hempty] at hp
      cases hp
    · rw [if_neg hempty, processDiffs_eq_total hashFn S T _ hA hM] at hp
      simpa [Except.map] using hp.symm
  subst hP
  constructor
  · intro p a b ha hb
    obtain ⟨ca, hca, rfl⟩ := processDiffsT_added_value hashFn S T _ emptyPatch
      (by intro p' h' hmem; simp [emptyPatch] at hmem) p a ha
    obtain ⟨cb, hcb, rfl⟩ := processDiffsT_added_value hashFn S T _ emptyPatch
      (by intro p' h' hmem; simp [emptyPatch] at hmem) p b hb
    rw [hca] at hcb
    rw [Option.some_injective _ hcb]
  · intro p a b ha hb
    obtain ⟨csa, cta, hcsa, hcta, rfl⟩ := processDiffsT_modified_value hashFn S T _
      emptyPatch (by intro p' h' hmem; simp [emptyPatch] at hmem) p a ha
    obtain ⟨csb, ctb, hcsb, hctb, rfl⟩ := processDiffsT_modified_value hashFn S T _
      emptyPatch (by intro p' h' hmem; simp [emptyPatch] at hmem) p b hb
    rw [hcsa] at hcsb
    rw [hcta] at hctb
    rw [Option.some_injective _ hcsb, Option.some_injective _ hctb]

/-- C6: checksum-chain propagation. For every path modified in both input
manifests and not deleted by the second patch, the merged manifest's modified
entry carries the first patch's original digest and the second patch's
modified digest. -/
theorem merge_chain_propagation (cs1 cs2 : Checksums D)
    (hnd1 : NodK cs1.modified) (p : Path) (c1 c2 : ModifiedChecksum D)
    (h1 : kfind p cs1.modified = some c1) (h2 : kfind p cs2.modified = some c2)
    (hdel : p ∉ cs2.deleted) :
    kfind p (merge_checksums cs1 cs2).modified = some ⟨c1.original, c2.modified⟩ := by
  have hfm := funcK_of_nodK hnd1
  rw [merged_modified_kfind cs1 cs2 hfm p]
  have hval : merge_modified_first_value cs1 cs2 p = some ⟨c1.original, c2.modified⟩ := by
    rw [merge_modified_first_value, h1]
    simp only [if_neg hdel, merge_modified_value, h2]
  rw [hval]
  by_cases ha : (kfind p (merge_checksums cs1 cs2).added).isSome <;> simp [ha]

/-- Witness for `merge_chain_propagation` on one doubly-modified path. -/
theorem merge_chain_propagation_witness :
    kfind "a" (merge_checksums (⟨[], [("a", ⟨1, 2⟩)], []⟩ : Checksums Nat)
        ⟨[], [("a", ⟨3, 4⟩)], []⟩).modified = some ⟨1, 4⟩ :=
  merge_chain_propagation (⟨[], [("a", ⟨1, 2⟩)], []⟩ : Checksums Nat)
    ⟨[], [("a", ⟨3, 4⟩)], []⟩ (by simp [NodK, keysOf]) "a" ⟨1, 2⟩ ⟨3, 4⟩
    rfl rfl (by simp)

/-- C7 (counterexample): two individually well-formed manifests — the first
modifies `a`, the second adds `a` (the degenerate Modified-then-Added cell) —
merge into a manifest whose `added` and `modified` key-sets both contain `a`,
so the output's key-sets are not pairwise disjoint. -/
theorem merge_disjointness_counterexample :
    (kfind "a" (merge_checksums (⟨[], [("a", ⟨0, 1⟩)], []⟩ : Checksums Nat)
        ⟨[("a", 2)], [], []⟩).added).isSome = true ∧
    (kfind "a" (merge_checksums (⟨[], [("a", ⟨0, 1⟩)], []⟩ : Checksums Nat)
        ⟨[("a", 2)], [], []⟩).modified).isSome = true := by
  constructor
  · rfl
  · rfl

/-- C7 (amended): `merge_checksums` is a total function (it cannot crash),
and its output's three key-sets are pairwise disjoint for every pair of
well-formed input manifests, provided additionally that no path is modified
by the first patch and added by the second, and no path is deleted by the
first patch and modified by the second — the two degenerate cells of the
resolution table that do break disjointness. -/
theorem merge_wellformed (cs1 cs2 : Checksums D)
    (hnd1a : NodK cs1.added) (hnd1m : NodK cs1.modified)
    (h1 : ∀ p ∈ keysOf cs1.added, kfind p cs1.modified = none ∧ p ∉ cs1.deleted)
    (h2 : ∀ p ∈ keysOf cs1.modified, p ∉ cs1.deleted)
    (h3 : ∀ p ∈ keysOf cs2.added, kfind p cs2.modified = none ∧ p ∉ cs2.deleted)
    (h4 : ∀ p ∈ keysOf cs2.modified, p ∉ cs2.deleted)
    (hx1 : ∀ p ∈ keysOf cs1.modified, kfind p cs2.added = none)
    (hx2 : ∀ p ∈ cs1.deleted, kfind p cs2.modified = none) :
    (∀ p, ¬ ((kfind p (merge_checksums cs1 cs2).added).isSome ∧
      (kfind p (merge_checksums cs1 cs2).modified).isSome)) ∧
    (∀ p, ¬ ((kfind p (merge_checksums cs1 cs2).added).isSome ∧
      p ∈ (merge_checksums cs1 cs2).deleted)) ∧
    (∀ p, ¬ ((kfind p (merge_checksums cs1 cs2).modified).isSome ∧
      p ∈ (merge_checksums cs1 cs2).deleted)) := by
  have hf1a := funcK_of_nodK hnd1a
  have hf1m := funcK_of_nodK hnd1m
  refine ⟨fun p hpair => ?_, fun p hpair => ?_, fun p hpair => ?_⟩
  · obtain ⟨hA, hMo⟩ := hpair
    rw [merged_modified_kfind cs1 cs2 hf1m p, if_pos hA,
      merge_modified_first_value] at hMo
    rcases hc1m : kfind p cs1.modified with _ | c1
    · rw [hc1m] at hMo; simp at hMo
    · rw [hc1m] at hMo
      have hk1m : p ∈ keysOf cs1.modified :=
        kfind_isSome_iff_mem_keys.mp (by simp [hc1m])
      rw [merged_added_kfind cs1 cs2 hf1a p] at hA
      rcases hc1a : kfind p cs1.added with _ | v
      · rw [hc1a] at hA
        simp at hA
        rw [hx1 p hk1m] at hA
        simp at hA
      · have hk1a : p ∈ keysOf cs1.added :=
          kfind_isSome_iff_mem_keys.mp (by simp [hc1a])
        have hnone := (h1 p hk1a).1
        rw [hnone] at hc1m
        cases hc1m
  · obtain ⟨hA, hD⟩ := hpair
    rw [merged_deleted_mem cs1 cs2 p] at hD
    rw [merged_added_kfind cs1 cs2 hf1a p] at hA
    rcases hD with ⟨hk1m, hdel2⟩ | ⟨hdel1, hna2⟩ | ⟨hdel2, hna1⟩
    · rcases hc1a : kfind p cs1.added with _ | v
      · rw [hc1a] at hA
        simp at hA
        exact (h3 p (kfind_isSome_iff_mem_keys.mp hA)).2 hdel2
      · have hk1a : p ∈ keysOf cs1.added :=
          kfind_isSome_iff_mem_keys.mp (by simp [hc1a])
        exact kfind_eq_none_iff_not_mem_keys.mp (h1 p hk1a).1 hk1m
    · rcases hc1a : kfind p cs1.added with _ | v
      · rw [hc1a] at hA
        simp at hA
        exact hna2 hA
      · have hk1a : p ∈ keysOf cs1.added :=
          kfind_isSome_iff_mem_keys.mp (by simp [hc1a])
        exact (h1 p hk1a).2 hdel1
    · rcases hc1a : kfind p cs1.added with _ | v
      · rw [hc1a] at hA
        simp at hA
        exact (h3 p (kfind_isSome_iff_mem_keys.mp hA)).2 hdel2
      · exact hna1 (by simp [hc1a])
  · obtain ⟨hMo, hD⟩ := hpair
    rw [merged_modified_kfind cs1 cs2 hf1m p] at hMo
    rw [merged_deleted_mem cs1 cs2 p] at hD
    have hmfv : merge_modified_first_value cs1 cs2 p = none := by
      rw [merge_modified_first_value]
      rcases hc1m : kfind p cs1.modified with _ | c1
      · rfl
      · have hk1m : p ∈ keysOf cs1.modified :=
          kfind_isSome_iff_mem_keys.mp (by simp [hc1m])
        rcases hD with ⟨_, hdel2⟩ | ⟨hdel1, _⟩ | ⟨hdel2, _⟩
        · simp [hdel2]
        · exact absurd hdel1 (h2 p hk1m)
        · simp [hdel2]
    rw [hmfv] at hMo
    by_cases hA : (kfind p (merge_checksums cs1 cs2).added).isSome
    · rw [if_pos hA] at hMo
      simp at hMo
    · rw [if_neg hA] at hMo
      simp at hMo
      rcases hD with ⟨_, hdel2⟩ | ⟨hdel1, _⟩ | ⟨hdel2, _⟩
      · exact (h4 p (kfind_isSome_iff_mem_keys.mp hMo)) hdel2
      · rw [hx2 p hdel1] at hMo
        simp at hMo
      · exact (h4 p (kfind_isSome_iff_mem_keys.mp hMo)) hdel2

/-- Witness for `merge_wellformed` on well-formed manifests exercising an
addition, a double modification and a deletion. -/
theorem merge_wellformed_witness :
    (∀ p, ¬ ((kfind p (merge_checksums (⟨[("a", 1)], [("b", ⟨1, 2⟩)], ["c"]⟩ : Checksums Nat)
        ⟨[("c", 3)], [("b", ⟨2, 4⟩)], ["a"]⟩).added).isSome ∧
      (kfind p (merge_checksums (⟨[("a", 1)], [("b", ⟨1, 2⟩)], ["c"]⟩ : Checksums Nat)
        ⟨[("c", 3)], [("b", ⟨2, 4⟩)], ["a"]⟩).modified).isSome)) ∧
    (∀ p, ¬ ((kfind p (merge_checksums (⟨[("a", 1)], [("b", ⟨1, 2⟩)], ["c"]⟩ : Checksums Nat)
        ⟨[("c", 3)], [("b", ⟨2, 4⟩)], ["a"]⟩).added).isSome ∧
      p ∈ (merge_checksums (⟨[("a", 1)], [("b", ⟨1, 2⟩)], ["c"]⟩ : Checksums Nat)
        ⟨[("c", 3)], [("b", ⟨2, 4⟩)], ["a"]⟩).deleted)) ∧
    (∀ p, ¬ ((kfind p (merge_checksums (⟨[("a", 1)], [("b", ⟨1, 2⟩)], ["c"]⟩ : Checksums Nat)
        ⟨[("c", 3)], [("b", ⟨2, 4⟩)], ["a"]⟩).modified).isSome ∧
      p ∈ (merge_checksums (⟨[("a", 1)], [("b", ⟨1, 2⟩)], ["c"]⟩ : Checksums Nat)
        ⟨[("c", 3)], [("b", ⟨2, 4⟩)], ["a"]⟩).deleted)) :=
  merge_wellformed (⟨[("a", 1)], [("b", ⟨1, 2⟩)], ["c"]⟩ : Checksums Nat)
    ⟨[("c", 3)], [("b", ⟨2, 4⟩)], ["a"]⟩
    (by simp [NodK, keysOf]) (by simp [NodK, keysOf])
    (by decide) (by decide) (by decide) (by decide) (by decide) (by decide)

/-- C1: merge composition is semantically equivalent to sequential
application. For every pre-state `S0`, with `P1` the patch diffing `S0` to
`S1` and `P2` the patch diffing `S1` to `S2`, applying `merge(P1, P2)` to a
copy of `S0` succeeds and yields a tree whose path-to-digest mapping equals
that of `S2`. -/
theorem merge_apply_equivalence (hashFn : Content → D)
    (S0 S1 S2 : List (Path × Content))
    (h0 : NodK S0) (h1 : NodK S1) (h2 : NodK S2)
    (P1 P2 : Patch D)
    (hp1 : createPatch hashFn S0 S1 = .ok (some P1))
    (hp2 : createPatch hashFn S1 S2 = .ok (some P2)) :
    ∃ t ws, apply_patch hashFn S0 (merge_patches P1 P2) = .ok (t, ws) ∧
      ∀ p, (kfind p t).map hashFn = (kfind p S2).map hashFn := by
  obtain ⟨c1A, c1AB, c1M, c1MB, c1D, hv1a, hv1m⟩ := createPatch_desc hashFn S0 S1 h1 P1 hp1
  obtain ⟨c2A, c2AB, c2M, c2MB, c2D, hv2a, hv2m⟩ := createPatch_desc hashFn S1 S2 h2 P2 hp2
  obtain ⟨hf1a, hf1m⟩ := createPatch_funcK hashFn S0 S1 h1 P1 hp1
  rw [apply_patch, apply_modifications_eq]
  refine ⟨_, _, rfl, fun p => ?_⟩
  have hfunA : ∀ c₁ c₂, (p, c₁) ∈ (merge_patches P1 P2).addedBodies →
      (p, c₂) ∈ (merge_patches P1 P2).addedBodies → c₁ = c₂ := by
    intro c₁ c₂ hm1 hm2
    have e1 := mem_filterMap_keys (find_added_source P1 P2)
      (keysOf (merge_checksums P1.checksums P2.checksums).added) p c₁ hm1
    have e2 := mem_filterMap_keys (find_added_source P1 P2)
      (keysOf (merge_checksums P1.checksums P2.checksums).added) p c₂ hm2
    rw [e1] at e2
    exact Option.some_injective _ e2
  have hfunM : ∀ c₁ c₂, (p, c₁) ∈ (merge_patches P1 P2).modifiedBodies →
      (p, c₂) ∈ (merge_patches P1 P2).modifiedBodies → c₁ = c₂ := by
    intro c₁ c₂ hm1 hm2
    have e1 := mem_filterMap_keys (find_modified_source P1 P2)
      (keysOf (merge_checksums P1.checksums P2.checksums).modified) p c₁ hm1
    have e2 := mem_filterMap_keys (find_modified_source P1 P2)
      (keysOf (merge_checksums P1.checksums P2.checksums).modified) p c₂ hm2
    rw [e1] at e2
    exact Option.some_injective _ e2
  have edel : kfind p (apply_deletions S0 (merge_patches P1 P2).checksums) =
      if p ∈ (merge_patches P1 P2).checksums.deleted then none else kfind p S0 := by
    rw [apply_deletions]
    exact kfind_apply_deletions p _ S0
  have eMAB : kfind p (merge_patches P1 P2).addedBodies =
      if p ∈ keysOf (merge_checksums P1.checksums P2.checksums).added
      then find_added_source P1 P2 p else none :=
    kfind_filterMap_keys (find_added_source P1 P2)
      (keysOf (merge_checksums P1.checksums P2.checksums).added) p
  have eMMB : kfind p (merge_patches P1 P2).modifiedBodies =
      if p ∈ keysOf (merge_checksums P1.checksums P2.checksums).modified
      then find_modified_source P1 P2 p else none :=
    kfind_filterMap_keys (find_modified_source P1 P2)
      (keysOf (merge_checksums P1.checksums P2.checksums).modified) p
  rw [kfind_apply_additions p (merge_patches P1 P2).modifiedBodies hfunM,
    kfind_apply_additions p (merge_patches P1 P2).addedBodies hfunA,
    edel, eMAB, eMMB]
  have emA := merged_added_kfind P1.checksums P2.checksums hf1a p
  have emM := merged_modified_kfind P1.checksums P2.checksums hf1m p
  have emD := merged_deleted_mem P1.checksums P2.checksums p
  rcases hks0 : kfind p S0 with _ | c0 <;> rcases hks1 : kfind p S1 with _ | c1 <;>
    rcases hks2 : kfind p S2 with _ | c2
  · -- (none, none, none)
    simp only [c1A p, c1AB p, c1M p, c1MB p, hks0, hks1, hks2,
      c2A p, c2AB p, c2M p, c2MB p] at emA emM emD ⊢
    simp [emA, emM, emD, merge_modified_first_value, c1M p, hks0, hks1, hks2,
      c1D p, c2D p, merge_patches, ← kfind_isSome_iff_mem_keys, hks0]
  · -- (none, none, some c2): freshly added by P2
    simp only [c1A p, c1AB p, c1M p, c1MB p, hks0, hks1, hks2,
      c2A p, c2AB p, c2M p, c2MB p] at emA emM emD ⊢
    simp [emA, emM, emD, merge_modified_first_value, c1M p, c2M p, hks0, hks1, hks2,
      c1D p, c2D p, merge_patches, ← kfind_isSome_iff_mem_keys,
      find_added_source, find_modified_source, c2AB p, c1AB p, c2MB p, c1MB p]
  · -- (none, some c1, none): added by P1, deleted by P2
    simp only [c1A p, c1AB p, c1M p, c1MB p, hks0, hks1, hks2,
      c2A p, c2AB p, c2M p, c2MB p] at emA emM emD ⊢
    simp [emA, emM, emD, merge_modified_first_value, c1M p, c2M p, hks0, hks1, hks2,
      c1D p, c2D p, merge_patches, ← kfind_isSome_iff_mem_keys,
      find_added_source, find_modified_source, c2AB p, c1AB p, c2MB p, c1MB p]
  · -- (none, some c1, some c2): added by P1, possibly modified by P2
    by_cases hinfo : infoOf hashFn c1 = infoOf hashFn c2
    · have hh : hashFn c1 = hashFn c2 := congrArg FileInfo.hash hinfo
      simp only [c1A p, c1AB p, c1M p, c1MB p, hks0, hks1, hks2,
        c2A p, c2AB p, c2M p, c2MB p] at emA emM emD ⊢
      simp [emA, emM, emD, merge_modified_first_value, merge_added_value,
        c1M p, c2M p, c2A p, hks0, hks1, hks2, hinfo,
        c1D p, c2D p, merge_patches, ← kfind_isSome_iff_mem_keys,
        find_added_source, find_modified_source, c2AB p, c1AB p, c2MB p, c1MB p, hh]
    · simp only [c1A p, c1AB p, c1M p, c1MB p, hks0, hks1, hks2,
        c2A p, c2AB p, c2M p, c2MB p] at emA emM emD ⊢
      simp [emA, emM, emD, merge_modified_first_value, merge_added_value,
        c1M p, c2M p, c2A p, hks0, hks1, hks2, hinfo,
        c1D p, c2D p, merge_patches, ← kfind_isSome_iff_mem_keys,
        find_added_source, find_modified_source, c2AB p, c1AB p, c2MB p, c1MB p]
  · -- (some c0, none, none): deleted by P1
    simp only [c1A p, c1AB p, c1M p, c1MB p, hks0, hks1, hks2,
      c2A p, c2AB p, c2M p, c2MB p] at emA emM emD ⊢
    simp [emA, emM, emD, merge_modified_first_value, c1M p, c2M p, hks0, hks1, hks2,
      c1D p, c2D p, merge_patches, ← kfind_isSome_iff_mem_keys,
      find_added_source, find_modified_source, c2AB p, c1AB p, c2MB p, c1MB p]
  · -- (some c0, none, some c2): deleted by P1, re-added by P2
    simp only [c1A p, c1AB p, c1M p, c1MB p, hks0, hks1, hks2,
      c2A p, c2AB p, c2M p, c2MB p] at emA emM emD ⊢
    simp [emA, emM, emD, merge_modified_first_value, c1M p, c2M p, hks0, hks1, hks2,
      c1D p, c2D p, merge_patches, ← kfind_isSome_iff_mem_keys,
      find_added_source, find_modified_source, c2AB p, c1AB p, c2MB p, c1MB p]
  · -- (some c0, some c1, none): deleted by P2
    by_cases hinfo : infoOf hashFn c0 = infoOf hashFn c1
    · simp only [c1A p, c1AB p, c1M p, c1MB p, hks0, hks1, hks2,
        c2A p, c2AB p, c2M p, c2MB p] at emA emM emD ⊢
      simp [emA, emM, emD, merge_modified_first_value, c1M p, c2M p, hks0, hks1, hks2,
        hinfo, c1D p, c2D p, merge_patches, ← kfind_isSome_iff_mem_keys,
        find_added_source, find_modified_source, c2AB p, c1AB p, c2MB p, c1MB p]
    · simp only [c1A p, c1AB p, c1M p, c1MB p, hks0, hks1, hks2,
        c2A p, c2AB p, c2M p, c2MB p] at emA emM emD ⊢
      simp [emA, emM, emD, merge_modified_first_value, c1M p, c2M p, hks0, hks1, hks2,
        hinfo, c1D p, c2D p, merge_patches, ← kfind_isSome_iff_mem_keys,
        find_added_source, find_modified_source, c2AB p, c1AB p, c2MB p, c1MB p]
  · -- (some c0, some c1, some c2)
    by_cases hinfo1 : infoOf hashFn c0 = infoOf hashFn c1 <;>
      by_cases hinfo2 : infoOf hashFn c1 = infoOf hashFn c2
    · have hh1 : hashFn c0 = hashFn c1 := congrArg FileInfo.hash hinfo1
      have hh2 : hashFn c1 = hashFn c2 := congrArg FileInfo.hash hinfo2
      simp only [c1A p, c1AB p, c1M p, c1MB p, hks0, hks1, hks2,
        c2A p, c2AB p, c2M p, c2MB p] at emA emM emD ⊢
      simp [emA, emM, emD, merge_modified_first_value, c1M p, c2M p, hks0, hks1, hks2,
        hinfo1, hinfo2, c1D p, c2D p, merge_patches, ← kfind_isSome_iff_mem_keys,
        find_added_source, find_modified_source, c2AB p, c1AB p, c2MB p, c1MB p,
        hh1, hh2]
    · simp only [c1A p, c1AB p, c1M p, c1MB p, hks0, hks1, hks2,
        c2A p, c2AB p, c2M p, c2MB p] at emA emM emD ⊢
      simp [emA, emM, emD, merge_modified_first_value, merge_modified_value,
        c1M p, c2M p, hks0, hks1, hks2,
        hinfo1, hinfo2, c1D p, c2D p, merge_patches, ← kfind_isSome_iff_mem_keys,
        find_added_source, find_modified_source, c2AB p, c1AB p, c2MB p, c1MB p]
    · have hh2 : hashFn c1 = hashFn c2 := congrArg FileInfo.hash hinfo2
      have hinfo1' : ¬ infoOf hashFn c0 = infoOf hashFn c2 :=
        fun h => hinfo1 (h.trans hinfo2.symm)
      simp only [c1A p, c1AB p, c1M p, c1MB p, hks0, hks1, hks2,
        c2A p, c2AB p, c2M p, c2MB p] at emA emM emD ⊢
      simp [emA, emM, emD, merge_modified_first_value, merge_modified_value,
        c1M p, c2M p, hks0, hks1, hks2,
        hinfo1, hinfo2, hinfo1', c1D p, c2D p, merge_patches,
        ← kfind_isSome_iff_mem_keys,
        find_added_source, find_modified_source, c2AB p, c1AB p, c2MB p, c1MB p, hh2]
    · simp only [c1A p, c1AB p, c1M p, c1MB p, hks0, hks1, hks2,
        c2A p, c2AB p, c2M p, c2MB p] at emA emM emD ⊢
      simp [emA, emM, emD, merge_modified_first_value, merge_modified_value,
        c1M p, c2M p, hks0, hks1, hks2,
        hinfo1, hinfo2, c1D p, c2D p, merge_patches, ← kfind_isSome_iff_mem_keys,
        find_added_source, find_modified_source, c2AB p, c1AB p, c2MB p, c1MB p]

/-- Witness for `merge_apply_equivalence`: a file added by the first patch
and deleted by the second, merged over an empty pre-state. -/
theorem merge_apply_equivalence_witness :
    ∃ t ws, apply_patch (fun c => c.length) []
        (merge_patches (⟨⟨[("a", 1)], [], []⟩, [("a", [1])], []⟩ : Patch Nat)
          ⟨⟨[], [], ["a"]⟩, [], []⟩) = .ok (t, ws) ∧
      ∀ p, (kfind p t).map (fun c => c.length) =
        (kfind p ([] : List (Path × Content))).map (fun c => c.length) :=
  merge_apply_equivalence (fun c => c.length) [] [("a", [1])] []
    (by simp [NodK, keysOf]) (by simp [NodK, keysOf]) (by simp [NodK, keysOf])
    (⟨⟨[("a", 1)], [], []⟩, [("a", [1])], []⟩ : Patch Nat)
    (⟨⟨[], [], ["a"]⟩, [], []⟩ : Patch Nat) (by decide) (by decide)

end MergeModel

end BinDiff
